import Mathlib

/-!
Verification development for the SEKGS graph relation-and-optimization engine.

The definitions below are shallow embeddings of the Python sources:
- `src/agents/relationer.py` (similarity via `difflib.SequenceMatcher`,
  `normalize_text`, `compute_relations`, `atomic_write`, `main`),
- `src/agents/agents/relationer.py` (`build_edges`, `save_graph`),
- `src/agents/optimizer.py` (`apply_decay`, `merge_exact_title`, `save_graph`, `main`).

Modelling conventions: Python floats are modelled as exact rationals (`ℚ`);
`difflib.SequenceMatcher.ratio` computes `2*M/T` with small integers, so the
rational model matches the float computation except for ties at double
precision, which none of the statements below depend on.  Strings are Lean
`String`s; `str.lower()` is modelled by `Char.toLower` (exact on ASCII) and
`str.split()` by splitting on the ASCII whitespace characters.
-/

namespace SM

/-! ### `difflib.SequenceMatcher` (CPython, `isjunk=None`, `autojunk=True`)

`similarity` in `src/agents/relationer.py` line 77 calls
`SequenceMatcher(None, a, b).ratio()`.  The embedding below follows CPython's
`difflib.py`: `__chain_b` builds `b2j` (occurrence indices per element,
dropping "popular" elements when `len(b) >= 200`), `find_longest_match` scans
`j2len` chains and then extends the best block, `get_matching_blocks` recurses
on both sides of the longest match, and `ratio` returns `2*M/T`.
With `isjunk=None` the junk set is empty, so the junk-extension loops of
`find_longest_match` never fire and are omitted. -/

/-- Character of `l` at index `i` (algorithm only reads in-bounds indices). -/
def charAt (l : List Char) (i : Nat) : Char := l.getD i ' '

/-- Ascending list of indices `j` with `b[j] = c`. -/
def occIdx (b : List Char) (c : Char) : List Nat :=
  (List.range b.length).filter (fun j => charAt b j = c)

/-- `b2j` lookup: occurrence indices of `c` in `b`, with CPython's autojunk
purge of popular elements (only active when `len(b) >= 200`). -/
def b2j (b : List Char) (c : Char) : List Nat :=
  let idxs := occIdx b c
  if 200 ≤ b.length ∧ b.length / 100 + 1 < idxs.length then [] else idxs

/-- State of the inner loop of `find_longest_match`: the `newj2len` map under
construction and the current best `(besti, bestj, bestsize)`. -/
def innerStep (i : Nat) (prev : Nat → Nat) (acc : (Nat → Nat) × Nat × Nat × Nat)
    (j : Nat) : (Nat → Nat) × Nat × Nat × Nat :=
  let k := (if j = 0 then 0 else prev (j - 1)) + 1
  let nj := fun x => if x = j then k else acc.1 x
  if acc.2.2.2 < k then (nj, i + 1 - k, j + 1 - k, k) else (nj, acc.2)

/-- Outer loop of `find_longest_match` over `i ∈ [alo, ahi)`; `j2len` is the
map from the previous `i`, reset to all-zero entries at each step. -/
def flmLoop (a b : List Char) (blo bhi : Nat) :
    List Nat → (Nat → Nat) → Nat × Nat × Nat → Nat × Nat × Nat
  | [], _, best => best
  | i :: is, prev, best =>
      let js := (b2j b (charAt a i)).filter (fun j => blo ≤ j ∧ j < bhi)
      let r := js.foldl (innerStep i prev) ((fun _ => 0), best)
      flmLoop a b blo bhi is r.1 r.2

/-- Leftward extension of the best block (`isbjunk` is constantly false since
`isjunk=None`); `fuel` bounds the iteration count, `besti` suffices. -/
def extendLeft (a b : List Char) (alo blo : Nat) :
    Nat → Nat × Nat × Nat → Nat × Nat × Nat
  | 0, best => best
  | fuel + 1, (besti, bestj, bestsize) =>
      if alo < besti ∧ blo < bestj ∧ charAt a (besti - 1) = charAt b (bestj - 1) then
        extendLeft a b alo blo fuel (besti - 1, bestj - 1, bestsize + 1)
      else (besti, bestj, bestsize)

/-- Rightward extension of the best block; `fuel = ahi` suffices. -/
def extendRight (a b : List Char) (ahi bhi besti bestj : Nat) :
    Nat → Nat → Nat
  | 0, bestsize => bestsize
  | fuel + 1, bestsize =>
      if besti + bestsize < ahi ∧ bestj + bestsize < bhi ∧
          charAt a (besti + bestsize) = charAt b (bestj + bestsize) then
        extendRight a b ahi bhi besti bestj fuel (bestsize + 1)
      else bestsize

/-- `SequenceMatcher.find_longest_match` on the window `[alo,ahi) × [blo,bhi)`. -/
def findLongestMatch (a b : List Char) (alo ahi blo bhi : Nat) : Nat × Nat × Nat :=
  let best := flmLoop a b blo bhi (List.range' alo (ahi - alo)) (fun _ => 0) (alo, blo, 0)
  let best := extendLeft a b alo blo best.1 best
  (best.1, best.2.1, extendRight a b ahi bhi best.1 best.2.1 ahi best.2.2)

/-- Total size `M` of the matching blocks of `get_matching_blocks`, computed by
the same recursion (left of the longest match, the match, right of it).
`fuel` bounds the recursion depth; every level shrinks the window `[alo,ahi)`
strictly, so `a.length + 1` fuel is sufficient at the top-level call. -/
def matchTotal (a b : List Char) : Nat → Nat → Nat → Nat → Nat → Nat
  | 0, _, _, _, _ => 0
  | fuel + 1, alo, ahi, blo, bhi =>
      let m := findLongestMatch a b alo ahi blo bhi
      if m.2.2 = 0 then 0
      else matchTotal a b fuel alo m.1 blo m.2.1 + m.2.2 +
           matchTotal a b fuel (m.1 + m.2.2) ahi (m.2.1 + m.2.2) bhi

/-- `SequenceMatcher.ratio()`: `2*M / (len(a)+len(b))` (and `1.0` when both
are empty, per `_calculate_ratio`). -/
def ratio (a b : List Char) : ℚ :=
  let total := a.length + b.length
  if total = 0 then 1
  else (2 * (matchTotal a b (total + 1) 0 a.length 0 b.length) : ℚ) / total

/-- Well-formedness of a candidate block `(besti, bestj, bestsize)` for the
window `[alo,ahi) × [blo,bhi)`. -/
def GoodBest (alo ahi blo bhi : Nat) (t : Nat × Nat × Nat) : Prop :=
  alo ≤ t.1 ∧ t.1 + t.2.2 ≤ ahi ∧ blo ≤ t.2.1 ∧ t.2.1 + t.2.2 ≤ bhi

/-- Invariant of the `j2len` maps: entries are bounded by `bound`, and a
nonzero chain length at `j` fits inside the `b` window starting at `blo`. -/
def GoodJ2 (blo bound : Nat) (f : Nat → Nat) : Prop :=
  ∀ j, f j ≤ bound ∧ (f j ≠ 0 → f j + blo ≤ j + 1)

end SM

/-- `similarity(a, b)` from `src/agents/relationer.py` lines 71–80:
returns `0.0` when either string is empty (falsy), otherwise
`SequenceMatcher(None, a, b).ratio()`. -/
def similarity (a b : String) : ℚ :=
  if a = "" ∨ b = "" then 0 else SM.ratio a.data b.data

/-- Python ASCII whitespace, the split points of `str.split()`. -/
def isPySpace (c : Char) : Bool :=
  c = ' ' ∨ c = '\t' ∨ c = '\n' ∨ c = '\x0b' ∨ c = '\x0c' ∨ c = '\r'

/-- `normalize_text(s)` from `src/agents/relationer.py` lines 67–69:
`" ".join(s.replace("\r", " ").replace("\n", " ").split()).lower()`. -/
def normalize_text (s : String) : String :=
  let repl := s.data.map (fun c => if c = '\r' ∨ c = '\n' then ' ' else c)
  let toks := (repl.splitOnP isPySpace).filter (· ≠ [])
  ⟨(List.intercalate [' '] toks).map Char.toLower⟩

/-- Word characters in the sense of regex `\w` (ASCII): letters, digits,
underscore. -/
def isWordChar (c : Char) : Bool := c.isAlphanum || c = '_'

/-- Modelled from the spec (§4.1): `tokenize(text)` normalizes, then splits on
non-word-character boundaries discarding empty tokens, and the result is taken
as a set (duplicates removed). -/
def tokenizeSpec (s : String) : List String :=
  (((((normalize_text s).data).splitOnP (fun c => !isWordChar c)).filter
    (· ≠ [])).map (fun l => (⟨l⟩ : String))).dedup

/-- Modelled from the spec (§4.2): Jaccard similarity `|A∩B| / |A∪B|` over the
token sets, and `0.0` whenever either token set is empty. -/
def jaccardSpec (a b : String) : ℚ :=
  let A := tokenizeSpec a
  let B := tokenizeSpec b
  if A = [] ∨ B = [] then 0
  else ((A.filter (· ∈ B)).length : ℚ) / ((A ++ B.filter (· ∉ A)).length : ℚ)

/-! ### `compute_relations` (`src/agents/relationer.py` lines 82–123) -/

/-- A node as consumed by `compute_relations`: `(node_id, text)`. -/
structure RNode where
  id : String
  text : String
deriving DecidableEq, Repr

/-- An edge as produced by `compute_relations`:
`{"source": id1, "target": id2, "score": float}`. -/
structure REdge where
  source : String
  target : String
  score : ℚ
deriving DecidableEq, Repr

/-- `(min(id_i, id_j), max(id_i, id_j))`, the canonical direction of a pair. -/
def canonPair (x y : String) : String × String := (min x y, max x y)

/-- `round(x, 6)`.  Python rounds the binary double half-to-even; the model
rounds the exact rational to the nearest multiple of `10⁻⁶` (`round` on ties),
which agrees except on floating-point boundary cases that do not arise in the
statements below. -/
def roundQ6 (q : ℚ) : ℚ := (round (q * 1000000) : ℤ) / 1000000

/-- A candidate entry `(id_j, score, pair)` of the `sims` list. -/
abbrev Cand := String × ℚ × (String × String)

/-- The `sims` list built for node index `i`: every other index `j` whose
canonical pair is not yet in `seen_pairs`, with
`score = similarity(norm_texts[i], norm_texts[j])`, in `j` order. -/
def simsFor (norm : List (String × String)) (seen : List (String × String))
    (i : Nat) : List Cand :=
  (List.range norm.length).filterMap (fun j =>
    if j = i then none
    else
      let pair := canonPair (norm.getD i ("", "")).1 (norm.getD j ("", "")).1
      if pair ∈ seen then none
      else some ((norm.getD j ("", "")).1,
        similarity (norm.getD i ("", "")).2 (norm.getD j ("", "")).2, pair))

/-- `sims.sort(key=lambda x: (-x[1], x[0]))`: descending score, ascending id
tie-break (stable, like Python's sort). -/
def candLE (x y : Cand) : Bool := y.2.1 < x.2.1 ∨ (x.2.1 = y.2.1 ∧ x.1 ≤ y.1)

/-- The `chosen` loop: append candidates with `score ≥ min_sim`, stop as soon
as `len(chosen) ≥ top_k` (checked after each element, appended or not). -/
def chooseLoop (minSim : ℚ) (topK : Nat) : List Cand → List Cand → List Cand
  | [], chosen => chosen
  | c :: rest, chosen =>
      let chosen' := if minSim ≤ c.2.1 then chosen ++ [c] else chosen
      if topK ≤ chosen'.length then chosen'
      else chooseLoop minSim topK rest chosen'

/-- The emission loop over `chosen`: skip pairs already in `seen_pairs`,
otherwise record the pair and append the edge `(min, max, round(score, 6))`. -/
def emitLoop : List Cand → List REdge × List (String × String) →
    List REdge × List (String × String)
  | [], st => st
  | c :: rest, (edges, seen) =>
      if c.2.2 ∈ seen then emitLoop rest (edges, seen)
      else emitLoop rest (edges ++ [⟨c.2.2.1, c.2.2.2, roundQ6 c.2.1⟩], seen ++ [c.2.2])

/-- One iteration of the outer `for i in range(n)` loop of `compute_relations`. -/
def relStep (norm : List (String × String)) (minSim : ℚ) (topK : Nat)
    (st : List REdge × List (String × String)) (i : Nat) :
    List REdge × List (String × String) :=
  emitLoop (chooseLoop minSim topK ((simsFor norm st.2 i).mergeSort candLE) []) st

/-- The pre-normalised `(id, normalize_text(text))` table of `compute_relations`. -/
def normTable (nodes : List RNode) : List (String × String) :=
  nodes.map (fun n => (n.id, normalize_text n.text))

/-- `compute_relations(nodes)` from `src/agents/relationer.py` lines 82–123:
returns `(edges, len(edges))`. -/
def compute_relations (nodes : List RNode) (minSim : ℚ) (topK : Nat) :
    List REdge × Nat :=
  let edges := ((List.range nodes.length).foldl
    (relStep (normTable nodes) minSim topK) ([], [])).1
  (edges, edges.length)

/-- The `(edges, seen_pairs)` state of `compute_relations` after the outer
loop has processed indices `0, …, i-1`. -/
def relStateAt (nodes : List RNode) (minSim : ℚ) (topK : Nat) (i : Nat) :
    List REdge × List (String × String) :=
  (List.range i).foldl (relStep (normTable nodes) minSim topK) ([], [])

/-- The sorted candidate list the algorithm builds for node index `i`
(the sorted `sims` of iteration `i`). -/
def candidatesAt (nodes : List RNode) (minSim : ℚ) (topK : Nat) (i : Nat) :
    List Cand :=
  (simsFor (normTable nodes) (relStateAt nodes minSim topK i).2 i).mergeSort candLE

/-! ### `main` of `src/agents/relationer.py` (lines 137–218) -/

/-- The `meta` dictionary fields touched by the engine; `none` models an
absent key. -/
structure MetaR where
  domain : Option String
  version : Option String
  generated_at : Option String
  relations_generated_at : Option String
  relations_count : Option Nat
  relations_top_k : Option Nat
  relations_min_similarity : Option ℚ
  relations_checksum : Option String
  optimized : Option Bool
  optimized_at : Option String
deriving DecidableEq, Repr

/-- An entirely absent `meta` dictionary. -/
def emptyMeta : MetaR :=
  ⟨none, none, none, none, none, none, none, none, none, none⟩

/-- The persisted graph object; `none` on `nodes`/`edges` models a JSON file
in which the key is missing (as after a run over an unreadable prior file). -/
structure WGraph where
  meta : MetaR
  nodes : Option (List String)
  edges : Option (List REdge)
deriving DecidableEq, Repr

/-- What loading `data/graph.json` can find: no file, an unreadable/corrupt
file (`safe_read_json` → `None`, so `main` works on `{}`), or a parsed graph. -/
inductive PriorGraph
  | absent
  | unreadable
  | present (g : WGraph)
deriving DecidableEq, Repr

/-- A node file as seen by `main`: its stem and, if `safe_read_json` returned
a truthy object, the `id`/`text` fields (`""` models a missing or falsy
field, matching `j.get("id") or p.stem` and `j.get("text") or ""`). -/
structure SrcFile where
  stem : String
  content : Option (String × String)
deriving DecidableEq, Repr

/-- `sorted_node_list`: node files sorted by file name (`stem + ".json"`). -/
def sortFiles (files : List SrcFile) : List SrcFile :=
  files.mergeSort (fun f g => f.stem ++ ".json" ≤ g.stem ++ ".json")

/-- The `nodes` list `main` extracts: readable files only, id defaulting to
the stem, text defaulting to `""`. -/
def extractNodes (files : List SrcFile) : List RNode :=
  files.filterMap (fun f => f.content.map (fun c =>
    ⟨if c.1 = "" then f.stem else c.1, c.2⟩))

/-- Injective rendering of a rational, standing in for its JSON float text. -/
def encQ (q : ℚ) : String := toString q.num ++ "/" ++ toString q.den

/-- Rendering of one edge object. -/
def encEdge (e : REdge) : String :=
  "\x7b" ++ e.source ++ "|" ++ e.target ++ "|" ++ encQ e.score ++ "\x7d"

/-- Rendering of an optional field. -/
def encOpt (f : α → String) : Option α → String
  | none => "_"
  | some x => "+" ++ f x

/-- Rendering of a string list. -/
def encList (f : α → String) (l : List α) : String :=
  "[" ++ String.intercalate "," (l.map f) ++ "]"

/-- Canonical rendering of the whole graph object, standing in for the bytes
`json.dumps(graph_obj, ensure_ascii=False, indent=2)` writes to disk.
`file_checksum` is sha256 over exactly these bytes; the model replaces the
(collision-resistant, injective in practice) hash of the file bytes by an
injective rendering of the graph value, so two checksums are equal exactly
when the serialized graph objects are equal. -/
def encodeWGraph (g : WGraph) : String :=
  "meta:" ++ encOpt id g.meta.domain ++ ";" ++ encOpt id g.meta.version ++ ";" ++
    encOpt id g.meta.generated_at ++ ";" ++ encOpt id g.meta.relations_generated_at ++
    ";" ++ encOpt (fun n => toString n) g.meta.relations_count ++ ";" ++
    encOpt (fun n => toString n) g.meta.relations_top_k ++ ";" ++
    encOpt encQ g.meta.relations_min_similarity ++ ";" ++
    encOpt id g.meta.relations_checksum ++ ";" ++
    encOpt (fun b => toString b) g.meta.optimized ++ ";" ++
    encOpt id g.meta.optimized_at ++
  ";nodes:" ++ encOpt (encList id) g.nodes ++
  ";edges:" ++ encOpt (encList encEdge) g.edges

/-- `file_checksum(GRAPH_FILE)` after the first atomic write: modelled as the
injective rendering of the written graph (see `encodeWGraph`). -/
def file_checksum (g : WGraph) : String := encodeWGraph g

/-- The small-corpus branch of `main` (no node files, or fewer than 2 readable
nodes): reload the prior graph (or `{"meta": {}, "nodes": [], "edges": []}`
when the file does not exist, or `{}` when it is unreadable), set
`meta.relations_generated_at` and `meta.relations_count = 0`, write, return 0. -/
def smallCorpusRun (prior : PriorGraph) (now : String) : Int × WGraph :=
  match prior with
  | .absent =>
      (0, ⟨{ emptyMeta with relations_generated_at := some now, relations_count := some 0 },
        some [], some []⟩)
  | .unreadable =>
      (0, ⟨{ emptyMeta with relations_generated_at := some now, relations_count := some 0 },
        none, none⟩)
  | .present g =>
      (0, ⟨{ g.meta with relations_generated_at := some now, relations_count := some 0 },
        g.nodes, g.edges⟩)

/-- `main()` of `src/agents/relationer.py`: returns the exit status and the
finally-persisted graph object (after the checksum rewrite).  `now` is the
timestamp `time.strftime(...)` renders during the run. -/
def relationerMain (files : List SrcFile) (prior : PriorGraph) (now : String)
    (minSim : ℚ) (topK : Nat) : Int × WGraph :=
  let sorted := sortFiles files
  if sorted = [] then smallCorpusRun prior now
  else
    let nodes := extractNodes sorted
    if nodes.length < 2 then smallCorpusRun prior now
    else
      let ec := compute_relations nodes minSim topK
      let meta1 : MetaR :=
        { domain := some "ai-tools-creator-workflows", version := some "0.1",
          generated_at := some now, relations_generated_at := some now,
          relations_count := some ec.2, relations_top_k := some topK,
          relations_min_similarity := some minSim, relations_checksum := some "",
          optimized := some true, optimized_at := none }
      let g1 : WGraph := ⟨meta1, some (nodes.map RNode.id), some ec.1⟩
      (0, ⟨{ meta1 with relations_checksum := some (file_checksum g1) },
        g1.nodes, g1.edges⟩)

/-! ### `build_edges` (`src/agents/agents/relationer.py` lines 25–38) -/

/-- A node as consumed by `build_edges`: id, title, keywords. -/
structure BNode where
  id : String
  title : String
  keywords : List String
deriving DecidableEq, Repr

/-- An edge as produced by `build_edges`. -/
structure BEdge where
  source : String
  target : String
  type : String
  weight : ℚ
deriving DecidableEq, Repr

/-- `round(x, 3)` (see `roundQ6` for the float-rounding caveat). -/
def roundQ3 (q : ℚ) : ℚ := (round (q * 1000) : ℤ) / 1000

/-- `(title + " " + " ".join(keywords)).lower().split()`. -/
def bTokens (n : BNode) : List String :=
  let joined := n.title ++ " " ++ String.intercalate " " n.keywords
  ((joined.data.map Char.toLower).splitOnP isPySpace).filter (· ≠ []) |>.map
    (fun l => (⟨l⟩ : String))

/-- `len(set(ta) & set(tb))`: the number of distinct shared tokens. -/
def commonCount (ta tb : List String) : Nat :=
  ((ta.dedup).filter (· ∈ tb)).length

/-- The edge `build_edges` emits for the ordered pair `(a, b)`, if any:
requires at least 3 distinct shared tokens; `source`/`target` keep the input
order (no canonicalization). -/
def pairEdge (a b : BNode) : Option BEdge :=
  let c := commonCount (bTokens a) (bTokens b)
  if 3 ≤ c then
    some ⟨a.id, b.id, "related_to", roundQ3 (min 1 (1/4 + (c : ℚ) * (5/100)))⟩
  else none

/-- `build_edges(nodes)` from `src/agents/agents/relationer.py` lines 25–38:
the double loop `for i ...: for j in range(i+1, ...)` in input order. -/
def build_edges : List BNode → List BEdge
  | [] => []
  | a :: rest => rest.filterMap (pairEdge a) ++ build_edges rest

/-! ### `src/agents/optimizer.py` -/

/-- The result of reading a node's `last_updated` field: `absent` for a
missing/empty value (`if not lu: continue`), `unparseable` when
`datetime.fromisoformat` raises, `parsed age` when it parses and
`(now - dt).days = age` at the time of the run. -/
inductive LUAge
  | absent
  | unparseable
  | parsed (ageDays : Int)
deriving DecidableEq, Repr

/-- A node record as manipulated by the optimizer.  `path` is the file the
record was loaded from; `trust_score`/`relevance_score` are `none` when the
key is missing (`node.get(..., default)`).  `relations`/`examples` are
required by `merge_exact_title`'s direct `knode["relations"]` access. -/
structure PNode where
  path : String
  id : String
  title : String
  trust_score : Option ℚ
  relevance_score : Option ℚ
  relations : List String
  examples : List String
  lu : LUAge
deriving DecidableEq, Repr

/-- `STALE_DAYS` (`src/agents/optimizer.py` line 17). -/
def STALE_DAYS : Int := 180

/-- `DECAY_PERCENT` (`src/agents/optimizer.py` line 18). -/
def DECAY_PERCENT : ℚ := 20

/-- One node's treatment by `apply_decay` (lines 36–51): skip when
`last_updated` is missing or unparseable; when `age ≥ STALE_DAYS` set
`relevance_score = max(0.0, node.get("relevance_score", 50.0) * (100 - DECAY_PERCENT) / 100.0)`. -/
def decayNode (n : PNode) : PNode :=
  match n.lu with
  | .parsed age =>
      if STALE_DAYS ≤ age then
        let r := max 0 ((n.relevance_score.getD 50) * (100 - DECAY_PERCENT) / 100)
        { n with relevance_score := some r }
      else n
  | _ => n

/-- `apply_decay(nodes)`: the pass over all loaded nodes (each decayed node is
also written back to its file, which the record update models). -/
def apply_decay (ns : List PNode) : List PNode := ns.map decayNode

/-- State of the `merge_exact_title` loop: current node records (mutated in
place through the shared dict objects), the `titles` table mapping a
normalized title to the first node id seen with it, the `removed` id list,
and the list of deleted file paths (`os.remove`). -/
structure MSt where
  recs : List PNode
  titles : List (String × String)
  removed : List String
  deleted : List String
deriving DecidableEq, Repr

/-- Current record with a given id (the live dict object `nodes[i]["node"]`). -/
def lookupRec (recs : List PNode) (i : String) : Option PNode :=
  recs.find? (fun r => r.id = i)

/-- In-place mutation of the record with id `i`. -/
def updateRec (recs : List PNode) (i : String) (n : PNode) : List PNode :=
  recs.map (fun r => if r.id = i then n else r)

/-- `node.get("title","").strip().lower()`, the grouping key: strip Python
whitespace from both ends, then lowercase. -/
def mergeKey (n : PNode) : String :=
  ⟨(((n.title.data.dropWhile isPySpace).reverse.dropWhile isPySpace).reverse).map
    Char.toLower⟩

/-- Merging one duplicate record into the canonical record (`knode`):
extend `relations` and `examples`, take the max of the `trust_score`s
(missing values default to 0). -/
def absorbDup (knode node : PNode) : PNode :=
  { knode with
    relations := knode.relations ++ node.relations,
    examples := knode.examples ++ node.examples,
    trust_score := some (max (knode.trust_score.getD 0) (node.trust_score.getD 0)) }

/-- One iteration of the `merge_exact_title` loop (lines 56–78) on the node
listed as `p` in the load order. -/
def mergeStep (st : MSt) (p : PNode) : MSt :=
  let node := (lookupRec st.recs p.id).getD p
  let t := mergeKey node
  if t = "" then st
  else
    match st.titles.lookup t with
    | some keep =>
        let knode := (lookupRec st.recs keep).getD p
        { recs := updateRec st.recs keep (absorbDup knode node),
          titles := st.titles,
          removed := st.removed ++ [p.id],
          deleted := st.deleted ++ [node.path] }
    | none => { st with titles := st.titles ++ [(t, p.id)] }

/-- `merge_exact_title(nodes)` from `src/agents/optimizer.py` lines 53–79. -/
def merge_exact_title (ns : List PNode) : MSt :=
  ns.foldl mergeStep ⟨ns, [], [], []⟩

/-- `main()` of `src/agents/optimizer.py` (lines 81–92): decay pass, merge
pass, filter removed ids out of `graph["nodes"]`, set `meta.optimized_at`,
save (non-atomically).  Returns the final records, removed ids, deleted paths
and written graph; when the store is empty nothing is touched. -/
def optimizerMain (ns : List PNode) (g : WGraph) (now : String) :
    List PNode × List String × List String × WGraph :=
  if ns = [] then (ns, [], [], g)
  else
    let ns1 := apply_decay ns
    let st := merge_exact_title ns1
    (st.recs, st.removed, st.deleted,
      ⟨{ g.meta with optimized_at := some now },
        some ((g.nodes.getD []).filter (fun n => n ∉ st.removed)), g.edges⟩)

/-! ### File-system trace model for the write discipline (C2)

`atomic_write` (`src/agents/relationer.py` lines 125–128) writes a temporary
file and renames it over the target; `save_graph` in `src/agents/optimizer.py`
lines 25–26 (and in `src/agents/agents/relationer.py` lines 45–46) writes the
target directly with `Path.write_text`.  The trace model makes the two
disciplines comparable: a crash inside a `write` leaves an arbitrary prefix of
the new content (the file was truncated first), a `rename` is atomic. -/

inductive FsOp
  | write (path content : String)
  | rename (src dst : String)

/-- File-system contents, one optional string per path. -/
def FS := String → Option String

/-- Effect of a completed operation. -/
def applyOp (fs : FS) : FsOp → FS
  | .write p c => fun q => if q = p then some c else fs q
  | .rename s d => fun q => if q = d then fs s else if q = s then none else fs q

/-- All prefixes of a string, the possible on-disk contents if a crash
interrupts `write_text`. -/
def strPrefixes (c : String) : List String :=
  (List.range (c.length + 1)).map (fun k => (⟨c.data.take k⟩ : String))

/-- Contents of `watch` observable if the crash happens inside `op`. -/
def midViews (watch : String) (fs : FS) : FsOp → List (Option String)
  | .write p c => if p = watch then (strPrefixes c).map some else [fs watch]
  | .rename _ _ => []

/-- Every content of the path `watch` observable at some crash point while the
operations run (before each op, inside each op, and at the end). -/
def crashViews (watch : String) (fs : FS) : List FsOp → List (Option String)
  | [] => [fs watch]
  | op :: rest => [fs watch] ++ midViews watch fs op ++ crashViews watch (applyOp fs op) rest

/-- `GRAPH_FILE`. -/
def graphPath : String := "data/graph.json"

/-- `atomic_write(path, data)` (`src/agents/relationer.py` lines 125–128):
`tmp = path.with_suffix(path.suffix + ".tmp")`, write tmp, `tmp.replace(path)`.
For a `.json` path the tmp path is the path with `.tmp` appended. -/
def atomic_write (path data : String) : List FsOp :=
  [.write (path ++ ".tmp") data, .rename (path ++ ".tmp") path]

/-- `save_graph(g)` of `src/agents/optimizer.py` lines 25–26 (also
`src/agents/agents/relationer.py` lines 45–46): a single direct
`GRAPH_FILE.write_text(...)` of the serialized graph. -/
def save_graph (data : String) : List FsOp :=
  [.write graphPath data]

/-- A two-node store used as a concrete test fixture. -/
def c4files : List SrcFile :=
  [⟨"n1", some ("x", "hello world")⟩, ⟨"n2", some ("y", "hello world")⟩]

/-- A two-node input of `compute_relations` used as a concrete test fixture. -/
def c5nodes : List RNode := [⟨"a", "hello world"⟩, ⟨"b", "hello world"⟩]

/-- Folding all listed duplicates of a group into its canonical record, in
order (iterated `absorbDup`, exactly as the merge loop performs it). -/
def mergeInto (c : PNode) (ds : List PNode) : PNode := ds.foldl absorbDup c

/-- Whether `p` is treated as a duplicate by the merge pass over the store
`ms`: its key is nonempty and it is not the first node of `ms` with its key. -/
def isDupB (ms : List PNode) (p : PNode) : Bool :=
  decide (mergeKey p ≠ "") &&
    decide ((ms.filter (fun q => mergeKey q = mergeKey p)).head? ≠ some p)

/-- The duplicates already merged into `x`'s record after the prefix `pre`
has been processed: a nonempty-key canonical node absorbs the processed
nodes with its key (other than itself); any other node's record is
untouched. -/
def dupsProcessed (ms : List PNode) (x : PNode) (pre : List PNode) : List PNode :=
  if mergeKey x ≠ "" ∧ (ms.filter (fun q => mergeKey q = mergeKey x)).head? = some x then
    pre.filter (fun p => mergeKey p = mergeKey x ∧ p.id ≠ x.id)
  else []

/-- Invariant of the `merge_exact_title` loop after processing the prefix
`pre` of the store `ms`: the `titles` table maps each nonempty key to the
first processed node with it, every record equals its original with its
processed duplicates absorbed, and `removed`/`deleted` list exactly the
processed duplicates. -/
def MergeInv (ms pre : List PNode) (st : MSt) : Prop :=
  (∀ t, t ≠ "" → st.titles.lookup t
      = ((pre.filter (fun p => mergeKey p = t)).head?).map PNode.id) ∧
  (∀ x ∈ ms, lookupRec st.recs x.id = some (mergeInto x (dupsProcessed ms x pre))) ∧
  st.removed = (pre.filter (isDupB ms)).map PNode.id ∧
  st.deleted = (pre.filter (isDupB ms)).map PNode.path

/-- First record of a duplicate-title store used as a concrete test fixture. -/
def c8a : PNode := ⟨"p1", "n1", "LLM Guide", some 10, none, ["r1"], ["e1"], .absent⟩

/-- Second record of the duplicate-title fixture store. -/
def c8b : PNode := ⟨"p2", "n2", "llm guide", some 30, none, ["r2"], ["e2"], .absent⟩

/-- A duplicate-title store used as a concrete test fixture. -/
def c8nodes : List PNode := [c8a, c8b]

/-- A record with an empty title, a concrete test fixture. -/
def c10a : PNode := ⟨"q1", "m1", "", some 1, none, ["r"], [], .absent⟩

/-- A record with a whitespace-only title, a concrete test fixture. -/
def c10b : PNode := ⟨"q2", "m2", "   ", some 2, none, [], ["e"], .absent⟩

/-- A store in which two nodes share an empty normalized title. -/
def c10nodes : List PNode := [c10a, c10b]

/-- Invariant of the `(edges, seen_pairs)` state of `compute_relations`:
`seen_pairs` is exactly the pair list of the emitted edges, pairs are never
repeated, and every recorded pair is strictly ordered. -/
def EdgeInv (st : List REdge × List (String × String)) : Prop :=
  st.1.map (fun e => (e.source, e.target)) = st.2 ∧ st.2.Nodup ∧
    ∀ p ∈ st.2, p.1 < p.2

namespace SM

theorem innerStep_good {alo ahi blo bhi : Nat}
    (i : Nat) (prev : Nat → Nat) (b0 : Nat)
    (hprev : GoodJ2 blo b0 prev) (hi : b0 + alo ≤ i) (hia : i < ahi)
    (j : Nat) (hjlo : blo ≤ j) (hjhi : j < bhi)
    (acc : (Nat → Nat) × Nat × Nat × Nat)
    (h1 : GoodJ2 blo (b0 + 1) acc.1) (h2 : GoodBest alo ahi blo bhi acc.2) :
    GoodJ2 blo (b0 + 1) (innerStep i prev acc j).1 ∧
      GoodBest alo ahi blo bhi (innerStep i prev acc j).2 := by
  simp only [innerStep]
  set K := (if j = 0 then 0 else prev (j - 1)) + 1 with hK
  have hKpos : 1 ≤ K := by rw [hK]; omega
  have hK1 : K ≤ b0 + 1 := by
    rw [hK]
    by_cases hj0 : j = 0
    · rw [if_pos hj0]; omega
    · rw [if_neg hj0]; have := (hprev (j - 1)).1; omega
  have hK2 : K + blo ≤ j + 1 := by
    rw [hK]
    by_cases hj0 : j = 0
    · rw [if_pos hj0]; omega
    · rw [if_neg hj0]
      rcases Nat.eq_zero_or_pos (prev (j - 1)) with h0 | h0
      · omega
      · have := (hprev (j - 1)).2 (by omega); omega
  have hnj : GoodJ2 blo (b0 + 1) (fun x => if x = j then K else acc.1 x) := by
    intro x
    by_cases hx : x = j
    · simp only [if_pos hx]
      exact ⟨hK1, fun _ => by omega⟩
    · simp only [if_neg hx]
      exact h1 x
  split
  · exact ⟨hnj, show alo ≤ i + 1 - K by omega, show (i + 1 - K) + K ≤ ahi by omega,
      show blo ≤ j + 1 - K by omega, show (j + 1 - K) + K ≤ bhi by omega⟩
  · exact ⟨hnj, h2⟩

theorem innerFold_good {alo ahi blo bhi : Nat}
    (i : Nat) (prev : Nat → Nat) (b0 : Nat)
    (hprev : GoodJ2 blo b0 prev) (hi : b0 + alo ≤ i) (hia : i < ahi) :
    ∀ (js : List Nat), (∀ j ∈ js, blo ≤ j ∧ j < bhi) →
    ∀ (acc : (Nat → Nat) × Nat × Nat × Nat),
      GoodJ2 blo (b0 + 1) acc.1 → GoodBest alo ahi blo bhi acc.2 →
      GoodJ2 blo (b0 + 1) (js.foldl (innerStep i prev) acc).1 ∧
        GoodBest alo ahi blo bhi (js.foldl (innerStep i prev) acc).2 := by
  intro js
  induction js with
  | nil => intro _ acc h1 h2; exact ⟨h1, h2⟩
  | cons j js ih =>
    intro hjs acc h1 h2
    obtain ⟨hjlo, hjhi⟩ := hjs j (List.mem_cons_self j js)
    have hjs' : ∀ x ∈ js, blo ≤ x ∧ x < bhi := fun x hx => hjs x (List.mem_cons_of_mem j hx)
    simp only [List.foldl_cons]
    obtain ⟨g1, g2⟩ :=
      innerStep_good i prev b0 hprev hi hia j hjlo hjhi acc h1 h2
    exact ih hjs' _ g1 g2

theorem flmLoop_good {a b : List Char} {alo ahi blo bhi : Nat} :
    ∀ (n s : Nat) (prev : Nat → Nat) (best : Nat × Nat × Nat) (b0 : Nat),
      GoodJ2 blo b0 prev → b0 + alo ≤ s → s + n ≤ ahi →
      GoodBest alo ahi blo bhi best →
      GoodBest alo ahi blo bhi (flmLoop a b blo bhi (List.range' s n) prev best) := by
  intro n
  induction n with
  | zero => intro s prev best b0 _ _ _ hbest; simpa [flmLoop] using hbest
  | succ n ih =>
    intro s prev best b0 hprev hs hn hbest
    rw [List.range'_succ]
    simp only [flmLoop]
    have hjs : ∀ j ∈ (b2j b (charAt a s)).filter (fun j => decide (blo ≤ j ∧ j < bhi)),
        blo ≤ j ∧ j < bhi := by
      intro j hj
      have := List.of_mem_filter hj
      simpa using this
    have h0 : GoodJ2 blo (b0 + 1) (fun _ : Nat => 0) :=
      fun j => ⟨Nat.zero_le _, fun h => (h rfl).elim⟩
    have hres := @innerFold_good alo ahi blo bhi
      s prev b0 hprev hs (show s < ahi by omega)
      ((b2j b (charAt a s)).filter (fun j => decide (blo ≤ j ∧ j < bhi))) hjs
      ((fun _ => 0), best) h0 hbest
    exact ih (s + 1) _ _ (b0 + 1) hres.1 (by omega) (by omega) hres.2

theorem extendLeft_good {a b : List Char} {alo ahi blo bhi : Nat} :
    ∀ (fuel : Nat) (best : Nat × Nat × Nat),
      GoodBest alo ahi blo bhi best →
      GoodBest alo ahi blo bhi (extendLeft a b alo blo fuel best) := by
  intro fuel
  induction fuel with
  | zero => intro best h; simpa [extendLeft] using h
  | succ fuel ih =>
    rintro ⟨bi, bj, bs⟩ h
    have h1 : alo ≤ bi := h.1
    have h2 : bi + bs ≤ ahi := h.2.1
    have h3 : blo ≤ bj := h.2.2.1
    have h4 : bj + bs ≤ bhi := h.2.2.2
    simp only [extendLeft]
    split
    · rename_i hcond
      obtain ⟨hc1, hc2, hc3⟩ := hcond
      exact ih _ ⟨show alo ≤ bi - 1 by omega, show (bi - 1) + (bs + 1) ≤ ahi by omega,
        show blo ≤ bj - 1 by omega, show (bj - 1) + (bs + 1) ≤ bhi by omega⟩
    · exact ⟨h1, h2, h3, h4⟩

theorem extendRight_le {a b : List Char} {ahi bhi besti bestj : Nat} :
    ∀ (fuel bs : Nat), besti + bs ≤ ahi → bestj + bs ≤ bhi →
      besti + extendRight a b ahi bhi besti bestj fuel bs ≤ ahi ∧
        bestj + extendRight a b ahi bhi besti bestj fuel bs ≤ bhi := by
  intro fuel
  induction fuel with
  | zero => intro bs h1 h2; simp only [extendRight]; omega
  | succ fuel ih =>
    intro bs h1 h2
    simp only [extendRight]
    split
    · rename_i hcond
      exact ih (bs + 1) (by omega) (by omega)
    · omega

theorem findLongestMatch_good {a b : List Char} {alo ahi blo bhi : Nat}
    (hab : alo ≤ ahi) (hbb : blo ≤ bhi) :
    GoodBest alo ahi blo bhi (findLongestMatch a b alo ahi blo bhi) := by
  have h1 : GoodBest alo ahi blo bhi
      (flmLoop a b blo bhi (List.range' alo (ahi - alo)) (fun _ => 0) (alo, blo, 0)) :=
    flmLoop_good (ahi - alo) alo _ _ 0 (fun j => ⟨Nat.le_refl 0, fun h => (h rfl).elim⟩)
      (by omega) (by omega) ⟨Nat.le_refl alo, show alo + 0 ≤ ahi by omega,
        Nat.le_refl blo, show blo + 0 ≤ bhi by omega⟩
  have h2 := @extendLeft_good a b alo ahi blo bhi
    (flmLoop a b blo bhi (List.range' alo (ahi - alo)) (fun _ => 0) (alo, blo, 0)).1 _ h1
  have h3 := @extendRight_le a b ahi bhi
    ((extendLeft a b alo blo
      (flmLoop a b blo bhi (List.range' alo (ahi - alo)) (fun _ => 0) (alo, blo, 0)).1
      (flmLoop a b blo bhi (List.range' alo (ahi - alo)) (fun _ => 0) (alo, blo, 0))).1)
    ((extendLeft a b alo blo
      (flmLoop a b blo bhi (List.range' alo (ahi - alo)) (fun _ => 0) (alo, blo, 0)).1
      (flmLoop a b blo bhi (List.range' alo (ahi - alo)) (fun _ => 0) (alo, blo, 0))).2.1)
    ahi _ h2.2.1 h2.2.2.2
  simp only [findLongestMatch]
  exact ⟨h2.1, h3.1, h2.2.2.1, h3.2⟩

theorem matchTotal_le {a b : List Char} :
    ∀ (fuel alo ahi blo bhi : Nat), alo ≤ ahi → blo ≤ bhi →
      matchTotal a b fuel alo ahi blo bhi + alo ≤ ahi ∧
        matchTotal a b fuel alo ahi blo bhi + blo ≤ bhi := by
  intro fuel
  induction fuel with
  | zero => intro alo ahi blo bhi h1 h2; simp only [matchTotal]; omega
  | succ fuel ih =>
    intro alo ahi blo bhi h1 h2
    simp only [matchTotal]
    obtain ⟨g1, g2, g3, g4⟩ := @findLongestMatch_good a b alo ahi blo bhi h1 h2
    split
    · omega
    · rename_i hk
      set m := findLongestMatch a b alo ahi blo bhi with hm
      have hl := ih alo m.1 blo m.2.1 g1 g3
      have hr := ih (m.1 + m.2.2) ahi (m.2.1 + m.2.2) bhi g2 g4
      omega

/-- The raw ratio always lies in `[0, 1]`. -/
theorem ratio_mem_unit (a b : List Char) : 0 ≤ ratio a b ∧ ratio a b ≤ 1 := by
  simp only [ratio]
  split
  · norm_num
  · rename_i htot
    have hM := @matchTotal_le a b
      (a.length + b.length + 1) 0 a.length 0 b.length (by omega) (by omega)
    have hpos : (0 : ℚ) < ((a.length + b.length : Nat) : ℚ) := by
      have : 0 < a.length + b.length := by omega
      exact_mod_cast this
    constructor
    · positivity
    · rw [div_le_one hpos]
      have h2 : 2 * matchTotal a b (a.length + b.length + 1) 0 a.length 0 b.length ≤
          a.length + b.length := by omega
      exact_mod_cast h2

end SM

/-! ## Claim theorems -/

/-- C1 counterexample: `similarity` is not the Jaccard coefficient over token
sets and does not return `0.0` on token-set-empty inputs.  `"!!!"` consists
only of punctuation, so its token set is empty, yet
`similarity("!!!", "!!!") = 1.0`; and on `"ab"`, `"ba"` the function returns
the `SequenceMatcher` ratio `0.5` while the Jaccard coefficient of the token
sets `{ab}`, `{ba}` is `0`. -/
theorem C1_counterexample :
    tokenizeSpec "!!!" = [] ∧ similarity "!!!" "!!!" = 1 ∧
      similarity "ab" "ba" = 1/2 ∧ jaccardSpec "ab" "ba" = 0 := by
  refine ⟨by decide, ?_, ?_, ?_⟩
  · have h : SM.matchTotal "!!!".data "!!!".data 7 0 3 0 3 = 3 := by decide
    unfold similarity
    rw [if_neg (by decide)]
    simp only [SM.ratio]
    norm_num [h]
  · have h : SM.matchTotal "ab".data "ba".data 5 0 2 0 2 = 1 := by decide
    unfold similarity
    rw [if_neg (by decide)]
    simp only [SM.ratio]
    norm_num [h]
  · have hnum : ((tokenizeSpec "ab").filter (· ∈ tokenizeSpec "ba")).length = 0 := by
      decide
    simp only [jaccardSpec]
    rw [if_neg (by decide), hnum]
    norm_num

/-- C1 (amended): `similarity(a, b)` returns the `SequenceMatcher` ratio of
the raw strings; the score always lies in `[0, 1]`, and it is `0.0` whenever
either input is the empty string (not whenever a token set is empty). -/
theorem C1_similarity_range (a b : String) :
    0 ≤ similarity a b ∧ similarity a b ≤ 1 ∧
      ((a = "" ∨ b = "") → similarity a b = 0) := by
  unfold similarity
  by_cases h : a = "" ∨ b = ""
  · rw [if_pos h]
    exact ⟨le_refl 0, by norm_num, fun _ => rfl⟩
  · rw [if_neg h]
    obtain ⟨h1, h2⟩ := SM.ratio_mem_unit a.data b.data
    exact ⟨h1, h2, fun hc => absurd hc h⟩

/-- Witness for `C1_similarity_range` at concrete inputs. -/
theorem C1_similarity_range_witness :
    similarity "x" "" = 0 ∧ 0 ≤ similarity "abc" "abd" ∧ similarity "abc" "abd" ≤ 1 :=
  ⟨(C1_similarity_range "x" "").2.2 (Or.inr rfl),
    (C1_similarity_range "abc" "abd").1, (C1_similarity_range "abc" "abd").2.1⟩

/-- C3 counterexample: `similarity` is not symmetric.
`similarity("ab", "bacb") = 2/3` but `similarity("bacb", "ab") = 1/3`
(the greedy longest-match recursion of `SequenceMatcher.ratio` depends on
the argument order). -/
theorem C3_counterexample : similarity "ab" "bacb" ≠ similarity "bacb" "ab" := by
  have h1 : similarity "ab" "bacb" = 2/3 := by
    have h : SM.matchTotal "ab".data "bacb".data 7 0 2 0 4 = 2 := by decide
    unfold similarity
    rw [if_neg (by decide)]
    simp only [SM.ratio]
    norm_num [h]
  have h2 : similarity "bacb" "ab" = 1/3 := by
    have h : SM.matchTotal "bacb".data "ab".data 7 0 4 0 2 = 1 := by decide
    unfold similarity
    rw [if_neg (by decide)]
    simp only [SM.ratio]
    norm_num [h]
  rw [h1, h2]
  norm_num

/-- C3 (amended): `similarity` is not symmetric in general; symmetry does hold
whenever either argument is empty, where both orders return `0.0`. -/
theorem C3_symmetric_on_empty (a b : String) (h : a = "" ∨ b = "") :
    similarity a b = 0 ∧ similarity b a = 0 := by
  unfold similarity
  rcases h with h | h <;> subst h
  · exact ⟨if_pos (Or.inl rfl), if_pos (Or.inr rfl)⟩
  · exact ⟨if_pos (Or.inr rfl), if_pos (Or.inl rfl)⟩

/-- Witness for `C3_symmetric_on_empty`. -/
theorem C3_symmetric_on_empty_witness :
    similarity "" "xyz" = 0 ∧ similarity "xyz" "" = 0 :=
  C3_symmetric_on_empty "" "xyz" (Or.inl rfl)

/-- C2 (amended): the relationer's `atomic_write` (temporary file in the same
directory, then rename) never exposes a partial graph file: at every crash
point the graph path holds either the previous content or the complete new
content.  (The optimizer's `save_graph` writes directly and does not have this
property, see the counterexample.) -/
theorem C2_atomic_write_safe (fs : FS) (data : String) (v : Option String)
    (hv : v ∈ crashViews graphPath fs (atomic_write graphPath data)) :
    v = fs graphPath ∨ v = some data := by
  have e1 : ¬(graphPath = graphPath ++ ".tmp") := by decide
  have e2 : ¬(graphPath ++ ".tmp" = graphPath) := by decide
  have hlist : crashViews graphPath fs (atomic_write graphPath data) =
      [fs graphPath, fs graphPath, fs graphPath, some data] := by
    simp [crashViews, midViews, applyOp, atomic_write, e1, e2]
  rw [hlist] at hv
  simp only [List.mem_cons, List.not_mem_nil, or_false] at hv
  rcases hv with h | h | h | h
  · exact Or.inl h
  · exact Or.inl h
  · exact Or.inl h
  · exact Or.inr h

/-- Witness for `C2_atomic_write_safe` at a concrete file system. -/
theorem C2_atomic_write_safe_witness :
    some "NEW" = (fun q => if q = graphPath then some "OLD" else none) graphPath ∨
      some "NEW" = some "NEW" :=
  C2_atomic_write_safe (fun q => if q = graphPath then some "OLD" else none)
    "NEW" (some "NEW") (by decide)

/-- C2 counterexample: the optimize entry point writes the graph file through
`save_graph`, a direct `write_text` with no temporary file and no rename; a
crash inside the write leaves a partially written graph file (here the strict
prefix `"NE"` of the new content `"NEW!"`, which is neither the old nor the
new content) observable at the graph path. -/
theorem C2_counterexample :
    some "NE" ∈ crashViews graphPath
        (fun q => if q = graphPath then some "OLD" else none) (save_graph "NEW!") ∧
      ("NE" : String) ≠ "OLD" ∧ ("NE" : String) ≠ "NEW!" ∧
      save_graph "NEW!" = [FsOp.write graphPath "NEW!"] :=
  ⟨by decide, by decide, by decide, rfl⟩

/-- C7: for a node with parseable `last_updated`, the decay pass multiplies
`relevance_score` by `(100 - DECAY_PERCENT)/100` (clamped at 0) exactly when
`age_days ≥ STALE_DAYS`, leaves fresh nodes unchanged, never increases a
nonnegative score, and takes a 200-day-old node from `50.0` to `40.0`;
`apply_decay` applies this to every node of the store. -/
theorem C7_decay (n : PNode) (age : Int) (r : ℚ) (hlu : n.lu = .parsed age)
    (hr : n.relevance_score = some r) (hr0 : 0 ≤ r) :
    (STALE_DAYS ≤ age →
      (decayNode n).relevance_score = some (max 0 (r * (100 - DECAY_PERCENT) / 100))) ∧
    (age < STALE_DAYS → decayNode n = n) ∧
    (∀ r', (decayNode n).relevance_score = some r' → r' ≤ r) ∧
    (age = 200 → r = 50 → (decayNode n).relevance_score = some 40) ∧
    (∀ ms : List PNode, apply_decay ms = ms.map decayNode) := by
  have hd1 : STALE_DAYS ≤ age →
      (decayNode n).relevance_score = some (max 0 (r * (100 - DECAY_PERCENT) / 100)) := by
    intro hs
    unfold decayNode
    rw [hlu]
    simp [hs, hr]
  have hd2 : age < STALE_DAYS → decayNode n = n := by
    intro hs
    unfold decayNode
    rw [hlu]
    simp [show ¬STALE_DAYS ≤ age by omega]
  refine ⟨hd1, hd2, ?_, ?_, fun _ => rfl⟩
  · intro r' hr'
    by_cases hs : STALE_DAYS ≤ age
    · rw [hd1 hs] at hr'
      have hr'' : r' = max 0 (r * (100 - DECAY_PERCENT) / 100) :=
        (Option.some_inj.mp hr').symm
      have h45 : r * (100 - DECAY_PERCENT) / 100 ≤ r := by
        unfold DECAY_PERCENT
        nlinarith
      rw [hr'']
      exact max_le hr0 h45
    · push_neg at hs
      rw [hd2 hs, hr] at hr'
      rw [(Option.some_inj.mp hr').symm]
  · intro ha hr50
    subst ha
    subst hr50
    have h40 : (50 : ℚ) * (100 - DECAY_PERCENT) / 100 = 40 := by
      norm_num [DECAY_PERCENT]
    rw [hd1 (by unfold STALE_DAYS; omega), h40,
      max_eq_right (by norm_num : (0 : ℚ) ≤ 40)]

/-- Witness for `C7_decay`: the 200-day-old node of spec Scenario C. -/
theorem C7_decay_witness :
    (decayNode ⟨"p", "n", "t", none, some 50, [], [], .parsed 200⟩).relevance_score
      = some 40 :=
  (C7_decay ⟨"p", "n", "t", none, some 50, [], [], .parsed 200⟩ 200 50 rfl rfl
    (by norm_num)).2.2.2.1 rfl rfl

/-- C6 counterexample: with fewer than 2 readable nodes the run exits 0 and
records `relations_count = 0`, but the persisted `edges` list is **not**
empty: the small-corpus branch reloads the existing graph file and rewrites
it with its previous `nodes`/`edges` intact (here one leftover edge). -/
theorem C6_counterexample :
    (relationerMain [⟨"n1", some ("a", "text a")⟩]
        (.present ⟨emptyMeta, some ["a", "b"], some [⟨"a", "b", 1⟩]⟩) "T" 0 3).1 = 0 ∧
    (relationerMain [⟨"n1", some ("a", "text a")⟩]
        (.present ⟨emptyMeta, some ["a", "b"], some [⟨"a", "b", 1⟩]⟩) "T" 0 3).2.meta.relations_count
      = some 0 ∧
    (relationerMain [⟨"n1", some ("a", "text a")⟩]
        (.present ⟨emptyMeta, some ["a", "b"], some [⟨"a", "b", 1⟩]⟩) "T" 0 3).2.edges
      = some [⟨"a", "b", 1⟩] ∧
    some [(⟨"a", "b", 1⟩ : REdge)] ≠ some ([] : List REdge) := by
  have hsort : sortFiles [(⟨"n1", some ("a", "text a")⟩ : SrcFile)]
      = [(⟨"n1", some ("a", "text a")⟩ : SrcFile)] := by
    simp [sortFiles]
  have hs : ¬sortFiles [(⟨"n1", some ("a", "text a")⟩ : SrcFile)] = [] := by
    rw [hsort]
    decide
  have hn : (extractNodes (sortFiles [(⟨"n1", some ("a", "text a")⟩ : SrcFile)])).length < 2 := by
    rw [hsort]
    decide
  refine ⟨?_, ?_, ?_, by simp⟩ <;>
    simp [relationerMain, if_neg hs, if_pos hn, smallCorpusRun]

/-- C6 (amended): with fewer than 2 readable nodes the run exits 0 and sets
`meta.relations_count = 0`, but the written graph keeps the prior file's
`nodes` and `edges` exactly as loaded; they are empty only when no prior
graph file exists (and the keys are absent entirely after an unreadable
prior file). -/
theorem C6_small_corpus (files : List SrcFile) (prior : PriorGraph) (now : String)
    (minSim : ℚ) (topK : Nat)
    (h : (extractNodes (sortFiles files)).length < 2) :
    (relationerMain files prior now minSim topK).1 = 0 ∧
    (relationerMain files prior now minSim topK).2.meta.relations_count = some 0 ∧
    (relationerMain files prior now minSim topK).2.edges =
      (match prior with
        | .absent => some []
        | .unreadable => none
        | .present g => g.edges) ∧
    (relationerMain files prior now minSim topK).2.nodes =
      (match prior with
        | .absent => some []
        | .unreadable => none
        | .present g => g.nodes) := by
  have hsm : relationerMain files prior now minSim topK = smallCorpusRun prior now := by
    by_cases hs : sortFiles files = []
    · simp [relationerMain, if_pos hs]
    · simp [relationerMain, if_neg hs, if_pos h]
  rw [hsm]
  cases prior <;> simp [smallCorpusRun]

/-- Witness for `C6_small_corpus`: an empty node store over an absent prior. -/
theorem C6_small_corpus_witness :
    (relationerMain [] .absent "T" 0 3).1 = 0 ∧
    (relationerMain [] .absent "T" 0 3).2.meta.relations_count = some 0 ∧
    (relationerMain [] .absent "T" 0 3).2.edges = some [] ∧
    (relationerMain [] .absent "T" 0 3).2.nodes = some [] :=
  C6_small_corpus [] .absent "T" 0 3
    (by rw [show sortFiles [] = [] from by simp [sortFiles]]; decide)

/-- C4 (amended): running the edge builder twice on an unchanged node set
(the second run reading back the first run's graph) at the same recorded
timestamp yields identical edge lists and identical recorded checksums;
the checksum is a hash of the full serialized file, timestamps included,
not of a timestamp-free canonical serialization (see the counterexample). -/
theorem C4_idempotent (files : List SrcFile) (prior : PriorGraph) (now : String)
    (minSim : ℚ) (topK : Nat) :
    (relationerMain files
        (.present (relationerMain files prior now minSim topK).2) now minSim topK).2.edges
      = (relationerMain files prior now minSim topK).2.edges ∧
    (relationerMain files
        (.present (relationerMain files prior now minSim topK).2) now minSim
        topK).2.meta.relations_checksum
      = (relationerMain files prior now minSim topK).2.meta.relations_checksum := by
  by_cases hs : sortFiles files = []
  · simp only [relationerMain, if_pos hs]
    cases prior <;> simp [smallCorpusRun]
  · by_cases hn : (extractNodes (sortFiles files)).length < 2
    · simp only [relationerMain, if_neg hs, if_pos hn]
      cases prior <;> simp [smallCorpusRun]
    · simp only [relationerMain, if_neg hs, if_neg hn]
      constructor <;> first | rfl | trivial

/-- C4 counterexample: two edge-build runs over the unchanged two-node store
`c4files`, recorded at timestamps `"T"` and `"TT"`, produce byte-identical
edge lists but different checksums: `file_checksum` hashes the whole
serialized file, whose `generated_at`/`relations_generated_at` fields hold
the run timestamp, so the hashed bytes (and hence the checksums) differ
between the runs even though the graph content is unchanged. -/
theorem C4_counterexample :
    (relationerMain c4files .absent "T" 0 3).2.edges
      = (relationerMain c4files .absent "TT" 0 3).2.edges ∧
    (relationerMain c4files .absent "T" 0 3).2.meta.relations_checksum
      ≠ (relationerMain c4files .absent "TT" 0 3).2.meta.relations_checksum ∧
    ("T" : String) ≠ "TT" := by
  have hs : ¬sortFiles c4files = [] := by
    intro h
    have h' := congrArg List.length h
    simp [sortFiles, c4files] at h'
  have hperm : List.Perm (extractNodes (sortFiles c4files)) (extractNodes c4files) := by
    unfold extractNodes sortFiles
    exact (List.mergeSort_perm _ _).filterMap _
  have hlen : (extractNodes (sortFiles c4files)).length = 2 := by
    rw [hperm.length_eq]
    decide
  have hn : ¬(extractNodes (sortFiles c4files)).length < 2 := by omega
  refine ⟨?_, ?_, by decide⟩
  · simp only [relationerMain, if_neg hs, if_neg hn]
  · simp only [relationerMain, if_neg hs, if_neg hn]
    intro h
    have h2 := Option.some_inj.mp h
    have h3 := congrArg String.length h2
    have e1 : ("T" : String).length = 1 := rfl
    have e2 : ("TT" : String).length = 2 := rfl
    simp only [file_checksum, encodeWGraph, encOpt, id_eq, String.length_append] at h3
    omega

/-- `emitLoop` preserves the edge-state invariant when every candidate pair it
may emit is strictly ordered. -/
theorem emitLoop_inv : ∀ (cs : List Cand) (st : List REdge × List (String × String)),
    EdgeInv st → (∀ c ∈ cs, c.2.2.1 < c.2.2.2) → EdgeInv (emitLoop cs st) := by
  intro cs
  induction cs with
  | nil => intro st h _; simpa [emitLoop] using h
  | cons c rest ih =>
    rintro ⟨edges, seen⟩ ⟨h1, h2, h3⟩ hc
    have hcrest : ∀ x ∈ rest, x.2.2.1 < x.2.2.2 :=
      fun x hx => hc x (List.mem_cons_of_mem c hx)
    simp only [emitLoop]
    split
    · exact ih _ ⟨h1, h2, h3⟩ hcrest
    · rename_i hnotin
      apply ih _ _ hcrest
      refine ⟨?_, ?_, ?_⟩
      · simp only [List.map_append, List.map_cons, List.map_nil, h1]
      · have hperm := List.perm_append_singleton c.2.2 seen
        rw [hperm.nodup_iff, List.nodup_cons]
        exact ⟨hnotin, h2⟩
      · intro p hp
        rcases List.mem_append.mp hp with hp | hp
        · exact h3 p hp
        · rw [List.mem_singleton.mp hp]
          exact hc c (List.mem_cons_self c rest)

/-- Every candidate produced by `simsFor` carries the canonical pair of the
node id at `i` and the node id at some other index `j < n`. -/
theorem simsFor_pair {norm : List (String × String)} {seen : List (String × String)}
    {i : Nat} {c : Cand} (hc : c ∈ simsFor norm seen i) :
    ∃ j, j < norm.length ∧ j ≠ i ∧
      c.2.2 = canonPair (norm.getD i ("", "")).1 (norm.getD j ("", "")).1 ∧
      c.2.2 ∉ seen := by
  obtain ⟨j, hj, hfj⟩ := List.mem_filterMap.mp hc
  have hjlt : j < norm.length := List.mem_range.mp hj
  by_cases hij : j = i
  · rw [if_pos hij] at hfj
    exact absurd hfj (by simp)
  · rw [if_neg hij] at hfj
    by_cases hseen : canonPair (norm.getD i ("", "")).1 (norm.getD j ("", "")).1 ∈ seen
    · rw [if_pos hseen] at hfj
      exact absurd hfj (by simp)
    · rw [if_neg hseen] at hfj
      refine ⟨j, hjlt, hij, ?_, ?_⟩
      · rw [← Option.some_inj.mp hfj]
      · rw [← Option.some_inj.mp hfj]
        exact hseen

/-- `chooseLoop` only returns elements of its accumulator or its input. -/
theorem chooseLoop_subset {minSim : ℚ} {topK : Nat} :
    ∀ (l acc : List Cand) (c : Cand), c ∈ chooseLoop minSim topK l acc →
      c ∈ acc ∨ c ∈ l := by
  intro l
  induction l with
  | nil => intro acc c hc; exact Or.inl (by simpa [chooseLoop] using hc)
  | cons x rest ih =>
    intro acc c hc
    simp only [chooseLoop] at hc
    by_cases hx : minSim ≤ x.2.1
    · rw [if_pos hx] at hc
      split at hc
      · rcases List.mem_append.mp hc with h | h
        · exact Or.inl h
        · exact Or.inr (by rw [List.mem_singleton.mp h]; exact List.mem_cons_self x rest)
      · rcases ih _ _ hc with h | h
        · rcases List.mem_append.mp h with h | h
          · exact Or.inl h
          · exact Or.inr (by rw [List.mem_singleton.mp h]; exact List.mem_cons_self x rest)
        · exact Or.inr (List.mem_cons_of_mem x h)
    · rw [if_neg hx] at hc
      split at hc
      · exact Or.inl hc
      · rcases ih _ _ hc with h | h
        · exact Or.inl h
        · exact Or.inr (List.mem_cons_of_mem x h)

/-- At distinct in-range indices, the normalized table carries distinct node
ids (given that the store's ids are distinct). -/
theorem normTable_id_ne {nodes : List RNode} (hid : (nodes.map RNode.id).Nodup)
    {i j : Nat} (hi : i < nodes.length) (hj : j < nodes.length) (hij : i ≠ j) :
    ((normTable nodes).getD i ("", "")).1 ≠ ((normTable nodes).getD j ("", "")).1 := by
  have hi' : i < (normTable nodes).length := by simpa [normTable] using hi
  have hj' : j < (normTable nodes).length := by simpa [normTable] using hj
  rw [List.getD_eq_getElem _ _ hi', List.getD_eq_getElem _ _ hj']
  simp only [normTable, List.getElem_map]
  intro he
  have hmi : i < (nodes.map RNode.id).length := by simpa using hi
  have hmj : j < (nodes.map RNode.id).length := by simpa using hj
  have : (nodes.map RNode.id)[i] = (nodes.map RNode.id)[j] := by
    simpa [List.getElem_map] using he
  exact hij (List.Nodup.getElem_inj_iff hid |>.mp this)

/-- One outer iteration of `compute_relations` preserves the edge invariant. -/
theorem relStep_inv {nodes : List RNode} (hid : (nodes.map RNode.id).Nodup)
    {minSim : ℚ} {topK : Nat} {st : List REdge × List (String × String)}
    (hst : EdgeInv st) {i : Nat} (hi : i < nodes.length) :
    EdgeInv (relStep (normTable nodes) minSim topK st i) := by
  apply emitLoop_inv _ _ hst
  intro c hc
  rcases chooseLoop_subset _ _ _ hc with h | h
  · exact absurd h (List.not_mem_nil c)
  · have hs := List.mem_mergeSort.mp h
    obtain ⟨j, hjlt, hji, hpair, _⟩ := simsFor_pair hs
    have hjlt' : j < nodes.length := by simpa [normTable] using hjlt
    have hne := normTable_id_ne hid hi hjlt' (Ne.symm hji)
    rw [hpair]
    simp only [canonPair]
    exact min_lt_max.mpr hne

/-- The outer fold of `compute_relations` preserves the edge invariant. -/
theorem relFold_inv {nodes : List RNode} {minSim : ℚ} {topK : Nat}
    (hid : (nodes.map RNode.id).Nodup) :
    ∀ (l : List Nat), (∀ i ∈ l, i < nodes.length) →
      ∀ st, EdgeInv st →
        EdgeInv (l.foldl (relStep (normTable nodes) minSim topK) st) := by
  intro l
  induction l with
  | nil => intro _ st hst; simpa using hst
  | cons i rest ih =>
    intro hl st hst
    simp only [List.foldl_cons]
    exact ih (fun x hx => hl x (List.mem_cons_of_mem i hx))
      _ (relStep_inv hid hst (hl i (List.mem_cons_self i rest)))

/-- C9 (amended): every edge set `compute_relations` emits over a store with
distinct node ids satisfies `source < target` lexicographically and has no
repeated `(source, target)` pair; the `build_edges` variant keeps the input
order of the ids and does not canonicalize, so its edges can violate
`source < target` (see the counterexample). -/
theorem C9_compute_relations_canonical (nodes : List RNode) (minSim : ℚ) (topK : Nat)
    (hid : (nodes.map RNode.id).Nodup) :
    (∀ e ∈ (compute_relations nodes minSim topK).1, e.source < e.target) ∧
    ((compute_relations nodes minSim topK).1.map (fun e => (e.source, e.target))).Nodup := by
  have h := @relFold_inv nodes minSim topK hid (List.range nodes.length)
    (fun i hi => List.mem_range.mp hi) ([], []) ⟨rfl, List.nodup_nil, by simp⟩
  obtain ⟨h1, h2, h3⟩ := h
  constructor
  · intro e he
    have hp : (e.source, e.target) ∈
        ((List.range nodes.length).foldl
          (relStep (normTable nodes) minSim topK) ([], [])).1.map
          (fun e => (e.source, e.target)) :=
      List.mem_map_of_mem _ he
    rw [h1] at hp
    exact h3 _ hp
  · show (((List.range nodes.length).foldl
      (relStep (normTable nodes) minSim topK) ([], [])).1.map
      (fun e => (e.source, e.target))).Nodup
    rw [h1]
    exact h2

/-- Witness for `C9_compute_relations_canonical` on the concrete store. -/
theorem C9_compute_relations_canonical_witness :
    ((compute_relations c5nodes 0 3).1.map (fun e => (e.source, e.target))).Nodup :=
  (C9_compute_relations_canonical c5nodes 0 3 (by decide)).2

/-- C9 counterexample: `build_edges` (the token-overlap edge builder) emits
edges in the input order of the node dict, with no canonicalization: on a
store listing id `"b"` before id `"a"` (sharing 3 title tokens) it emits the
single edge `("b", "a")` with `source > target`. -/
theorem C9_counterexample :
    (build_edges [⟨"b", "x y z", []⟩, ⟨"a", "x y z", []⟩]).head?.map
        (fun e => (e.source, e.target)) = some ("b", "a") ∧
    ¬(("b" : String) < "a") ∧
    (build_edges [⟨"b", "x y z", []⟩, ⟨"a", "x y z", []⟩]).length = 1 := by
  have hc : 3 ≤ commonCount (bTokens ⟨"b", "x y z", []⟩) (bTokens ⟨"a", "x y z", []⟩) := by
    decide
  have hedges : build_edges [⟨"b", "x y z", []⟩, ⟨"a", "x y z", []⟩]
      = [⟨"b", "a", "related_to",
          roundQ3 (min 1 (1/4 + (commonCount (bTokens ⟨"b", "x y z", []⟩)
            (bTokens ⟨"a", "x y z", []⟩) : ℚ) * (5/100)))⟩] := by
    simp only [build_edges, List.filterMap, pairEdge, if_pos hc]
    rfl
  refine ⟨by rw [hedges]; rfl, ?_, by rw [hedges]; rfl⟩
  intro hlt
  exact absurd (String.lt_iff_toList_lt.mp hlt) (by decide)

/-- `candLE` (the sort key `(-score, id)`) is transitive. -/
theorem candLE_trans (a b c : Cand) (hab : candLE a b = true) (hbc : candLE b c = true) :
    candLE a c = true := by
  simp only [candLE, Bool.decide_or, Bool.or_eq_true, decide_eq_true_eq,
    Bool.decide_and, Bool.and_eq_true] at *
  rcases hab with h1 | ⟨h1, h1'⟩ <;> rcases hbc with h2 | ⟨h2, h2'⟩
  · exact Or.inl (h2.trans h1)
  · exact Or.inl (h2 ▸ h1)
  · exact Or.inl (by rw [h1]; exact h2)
  · exact Or.inr ⟨h1.trans h2, h1'.trans h2'⟩

/-- `candLE` is total. -/
theorem candLE_total (a b : Cand) : candLE a b || candLE b a := by
  simp only [candLE, Bool.decide_or, Bool.or_eq_true, decide_eq_true_eq,
    Bool.decide_and, Bool.and_eq_true]
  rcases lt_trichotomy a.2.1 b.2.1 with h | h | h
  · exact Or.inr (Or.inl h)
  · rcases le_total a.1 b.1 with h' | h'
    · exact Or.inl (Or.inr ⟨h, h'⟩)
    · exact Or.inr (Or.inr ⟨h.symm, h'⟩)
  · exact Or.inl (Or.inl h)

/-- `chosen` is the first `top_k` of the candidates with `score ≥ min_sim`
(for a positive `top_k`; the general accumulator form). -/
theorem chooseLoop_take {minSim : ℚ} {topK : Nat} :
    ∀ (l chosen : List Cand), chosen.length < topK →
      chooseLoop minSim topK l chosen
        = chosen ++ (l.filter (fun c => minSim ≤ c.2.1)).take (topK - chosen.length) := by
  intro l
  induction l with
  | nil => intro chosen h; simp [chooseLoop]
  | cons c rest ih =>
    intro chosen h
    simp only [chooseLoop]
    by_cases hc : minSim ≤ c.2.1
    · rw [if_pos hc]
      by_cases ht : topK ≤ (chosen ++ [c]).length
      · rw [if_pos ht]
        have hlen : topK = chosen.length + 1 := by
          simp only [List.length_append, List.length_singleton] at ht
          omega
        rw [List.filter_cons_of_pos (by simpa using hc), hlen]
        have h1 : chosen.length + 1 - chosen.length = 1 := by omega
        rw [h1, List.take_succ_cons, List.take_zero]
      · rw [if_neg ht]
        have hlt : (chosen ++ [c]).length < topK := by
          simp only [List.length_append, List.length_singleton] at ht ⊢
          omega
        rw [ih _ hlt, List.filter_cons_of_pos (by simpa using hc)]
        have h2 : topK - chosen.length = (topK - (chosen ++ [c]).length) + 1 := by
          simp only [List.length_append, List.length_singleton]
          omega
        rw [h2, List.take_succ_cons]
        simp [List.append_assoc]
    · rw [if_neg hc, if_neg (by omega : ¬topK ≤ chosen.length), ih _ h,
        List.filter_cons_of_neg (by simpa using hc)]

/-- In-range entries of the normalized table. -/
theorem normTable_getD {nodes : List RNode} {k : Nat} (hk : k < nodes.length) :
    (normTable nodes).getD k ("", "") = (nodes[k].id, normalize_text nodes[k].text) := by
  have hk' : k < (normTable nodes).length := by simpa [normTable] using hk
  rw [List.getD_eq_getElem _ _ hk']
  simp [normTable]

/-- C5 (amended): during edge building, node `i`'s candidate list contains a
similarity score against exactly those other nodes whose canonical pair has
not already been emitted from an earlier node's list; the list is sorted by
descending score with ascending id tie-break, and `chosen` is the first
`top_k` entries with score `≥ min_similarity`.  (Each canonical pair is
emitted at most once — see the canonical-edge-set theorem; the weight is the
rounded score observed in the emitting direction, not a maximum of both.) -/
theorem C5_candidate_lists (nodes : List RNode) (minSim : ℚ) (topK : Nat)
    (i j : Nat) (hi : i < nodes.length) (hj : j < nodes.length) (hij : i ≠ j)
    (htop : 1 ≤ topK) :
    ((nodes[j].id, similarity (normalize_text nodes[i].text) (normalize_text nodes[j].text),
        canonPair nodes[i].id nodes[j].id) ∈ candidatesAt nodes minSim topK i ↔
      canonPair nodes[i].id nodes[j].id ∉ (relStateAt nodes minSim topK i).2) ∧
    List.Pairwise (fun x y => candLE x y = true) (candidatesAt nodes minSim topK i) ∧
    chooseLoop minSim topK (candidatesAt nodes minSim topK i) []
      = ((candidatesAt nodes minSim topK i).filter (fun c => minSim ≤ c.2.1)).take topK := by
  refine ⟨?_, ?_, ?_⟩
  · constructor
    · intro hmem hseen
      have hs := List.mem_mergeSort.mp hmem
      obtain ⟨j', _, _, _, hnot⟩ := simsFor_pair hs
      exact hnot hseen
    · intro hnot
      apply List.mem_mergeSort.mpr
      apply List.mem_filterMap.mpr
      refine ⟨j, List.mem_range.mpr (by simpa [normTable] using hj), ?_⟩
      rw [if_neg (Ne.symm hij), normTable_getD hi, normTable_getD hj]
      rw [if_neg hnot]
  · exact List.sorted_mergeSort candLE_trans candLE_total _
  · rw [chooseLoop_take _ [] (by simpa using htop)]
    simp

/-- Witness for `C5_candidate_lists` on the concrete store (node `"a"`'s own
candidate list, before anything is emitted). -/
theorem C5_candidate_lists_witness :
    (("b", similarity (normalize_text "hello world") (normalize_text "hello world"),
        canonPair "a" "b") ∈ candidatesAt c5nodes (5/100) 3 0 ↔
      canonPair "a" "b" ∉ (relStateAt c5nodes (5/100) 3 0).2) :=
  (C5_candidate_lists c5nodes (5/100) 3 0 1 (by decide) (by decide) (by decide)
    (by decide)).1

/-- C5 counterexample: on the two-node store `c5nodes` (ids `"a"`, `"b"`,
identical texts, similarity `1.0 ≥ min_similarity`), node `"b"`'s candidate
list is empty — it does **not** contain a similarity score against node
`"a"`, because the canonical pair `("a","b")` was already emitted while
processing node `"a"` and the `seen_pairs` check skips it before any score
is computed; consequently the pair's weight is the score observed from
`"a"`'s direction only, never a maximum of two observed scores. -/
theorem C5_counterexample :
    candidatesAt c5nodes (5/100) 3 1 = [] ∧
    (compute_relations c5nodes (5/100) 3).1.length = 1 ∧
    similarity (normalize_text "hello world") (normalize_text "hello world") = 1 ∧
    (5/100 : ℚ) ≤ 1 := by
  have hnorm : normalize_text "hello world" = "hello world" := by decide
  have hsim : similarity "hello world" "hello world" = 1 := by
    have h : SM.matchTotal "hello world".data "hello world".data 23 0 11 0 11 = 11 := by
      decide
    unfold similarity
    rw [if_neg (by decide)]
    simp only [SM.ratio]
    norm_num [h]
  have hab : ("a" : String) ≤ "b" := String.le_iff_toList_le.mpr (by decide)
  have hcanon : canonPair "a" "b" = ("a", "b") := by
    simp [canonPair, min_eq_left hab, max_eq_right hab]
  have hcanon2 : canonPair "b" "a" = ("a", "b") := by
    simp [canonPair, min_eq_right hab, max_eq_left hab]
  have hsims0 : simsFor (normTable c5nodes) [] 0
      = [("b", similarity "hello world" "hello world", canonPair "a" "b")] := rfl
  have hstep0 : relStep (normTable c5nodes) (5/100) 3 ([], []) 0
      = ([⟨"a", "b", roundQ6 1⟩], [("a", "b")]) := by
    simp only [relStep, hsims0, List.mergeSort_singleton, chooseLoop, hsim]
    rw [if_pos (by norm_num : (5/100 : ℚ) ≤ 1)]
    norm_num [emitLoop, hcanon]
  have hstate : relStateAt c5nodes (5/100) 3 1 = ([⟨"a", "b", roundQ6 1⟩], [("a", "b")]) := by
    have hr1 : List.range 1 = [0] := rfl
    simp only [relStateAt, hr1, List.foldl_cons, List.foldl_nil]
    exact hstep0
  have hsims1 : simsFor (normTable c5nodes) [("a", "b")] 1 = [] := by
    simp [simsFor, hcanon2, List.range_succ, normTable, c5nodes, hnorm]
  have hstep1 : relStep (normTable c5nodes) (5/100) 3
      ([⟨"a", "b", roundQ6 1⟩], [("a", "b")]) 1
      = ([⟨"a", "b", roundQ6 1⟩], [("a", "b")]) := by
    simp only [relStep, hsims1, List.mergeSort_nil, chooseLoop, emitLoop]
  refine ⟨?_, ?_, by rw [hnorm]; exact hsim, by norm_num⟩
  · simp only [candidatesAt, hstate, hsims1, List.mergeSort_nil]
  · have hrange : List.range c5nodes.length = [0, 1] := rfl
    simp only [compute_relations, hrange, List.foldl_cons, List.foldl_nil, hstep0, hstep1]
    rfl

/-- `List.lookup` over an append scans the left table first. -/
theorem lookup_append (k : String) (l1 l2 : List (String × String)) :
    (l1 ++ l2).lookup k = ((l1.lookup k).or (l2.lookup k)) := by
  induction l1 with
  | nil => simp [List.lookup]
  | cons p rest ih =>
    obtain ⟨a, b⟩ := p
    by_cases h : k = a
    · simp [List.lookup, h]
    · have hb : (k == a) = false := beq_eq_false_iff_ne.mpr h
      simp [List.lookup, hb, ih]

theorem absorbDup_id (k d : PNode) : (absorbDup k d).id = k.id := rfl

theorem absorbDup_path (k d : PNode) : (absorbDup k d).path = k.path := rfl

theorem absorbDup_title (k d : PNode) : (absorbDup k d).title = k.title := rfl

theorem mergeInto_id (ds : List PNode) : ∀ c, (mergeInto c ds).id = c.id := by
  induction ds with
  | nil => intro c; rfl
  | cons d ds ih => intro c; exact (ih (absorbDup c d)).trans rfl

theorem mergeInto_path (ds : List PNode) : ∀ c, (mergeInto c ds).path = c.path := by
  induction ds with
  | nil => intro c; rfl
  | cons d ds ih => intro c; exact (ih (absorbDup c d)).trans rfl

theorem mergeInto_title (ds : List PNode) : ∀ c, (mergeInto c ds).title = c.title := by
  induction ds with
  | nil => intro c; rfl
  | cons d ds ih => intro c; exact (ih (absorbDup c d)).trans rfl

theorem mergeKey_mergeInto (ds : List PNode) (c : PNode) :
    mergeKey (mergeInto c ds) = mergeKey c := by
  unfold mergeKey
  rw [mergeInto_title]

theorem mergeInto_relations (ds : List PNode) : ∀ c,
    (mergeInto c ds).relations = c.relations ++ (ds.map PNode.relations).flatten := by
  induction ds with
  | nil => intro c; simp [mergeInto]
  | cons d ds ih =>
    intro c
    have h1 : mergeInto c (d :: ds) = mergeInto (absorbDup c d) ds := rfl
    rw [h1, ih (absorbDup c d)]
    simp [absorbDup]

theorem mergeInto_examples (ds : List PNode) : ∀ c,
    (mergeInto c ds).examples = c.examples ++ (ds.map PNode.examples).flatten := by
  induction ds with
  | nil => intro c; simp [mergeInto]
  | cons d ds ih =>
    intro c
    have h1 : mergeInto c (d :: ds) = mergeInto (absorbDup c d) ds := rfl
    rw [h1, ih (absorbDup c d)]
    simp [absorbDup]

theorem mergeInto_trust (ds : List PNode) : ∀ c, ds ≠ [] →
    (mergeInto c ds).trust_score
      = some ((ds.map (fun p => p.trust_score.getD 0)).foldl max (c.trust_score.getD 0)) := by
  induction ds with
  | nil => intro c h; exact absurd rfl h
  | cons d ds ih =>
    intro c _
    have h1 : mergeInto c (d :: ds) = mergeInto (absorbDup c d) ds := rfl
    by_cases hds : ds = []
    · subst hds
      simp [mergeInto, absorbDup]
    · rw [h1, ih (absorbDup c d) hds]
      have h2 : (absorbDup c d).trust_score.getD 0
          = max (c.trust_score.getD 0) (d.trust_score.getD 0) := rfl
      rw [h2]
      simp

theorem mergeInto_concat (ds : List PNode) (c d : PNode) :
    mergeInto c (ds ++ [d]) = absorbDup (mergeInto c ds) d := by
  unfold mergeInto
  rw [List.foldl_append]
  rfl

theorem foldl_max_init (l : List ℚ) : ∀ a, a ≤ l.foldl max a := by
  induction l with
  | nil => intro a; simp
  | cons x l ih => intro a; exact le_trans (le_max_left a x) (ih (max a x))

theorem foldl_max_mem_le (l : List ℚ) : ∀ a, ∀ x ∈ l, x ≤ l.foldl max a := by
  induction l with
  | nil => intro a x hx; cases hx
  | cons y l ih =>
    intro a x hx
    rcases List.mem_cons.mp hx with h | h
    · subst h
      exact le_trans (le_max_right a x) (foldl_max_init l _)
    · exact ih (max a y) x h

theorem foldl_max_cases (l : List ℚ) : ∀ a, l.foldl max a = a ∨ l.foldl max a ∈ l := by
  induction l with
  | nil => intro a; exact Or.inl rfl
  | cons y l ih =>
    intro a
    rcases ih (max a y) with h | h
    · rcases max_cases a y with ⟨he, _⟩ | ⟨he, _⟩
      · exact Or.inl (by rw [List.foldl_cons, h, he])
      · exact Or.inr (by rw [List.foldl_cons, h, he]; exact List.mem_cons_self y l)
    · exact Or.inr (List.mem_cons_of_mem y h)

theorem lookupRec_self : ∀ (ms : List PNode), (ms.map PNode.id).Nodup →
    ∀ x ∈ ms, lookupRec ms x.id = some x := by
  intro ms
  induction ms with
  | nil => intro _ x hx; cases hx
  | cons y rest ih =>
    intro hnd x hx
    rw [List.map_cons, List.nodup_cons] at hnd
    rcases List.mem_cons.mp hx with h | h
    · subst h
      unfold lookupRec
      rw [List.find?_cons_of_pos _ (by simp)]
    · have hyx : ¬(y.id = x.id) := by
        intro he
        exact hnd.1 (he ▸ List.mem_map_of_mem PNode.id h)
      unfold lookupRec
      rw [List.find?_cons_of_neg _ (by simp [hyx])]
      exact ih hnd.2 x h

theorem lookupRec_update_self : ∀ (recs : List PNode) (i : String) (n : PNode),
    n.id = i → (∃ r, lookupRec recs i = some r) →
    lookupRec (updateRec recs i n) i = some n := by
  intro recs
  induction recs with
  | nil =>
    rintro i n hn ⟨r, hr⟩
    simp [lookupRec] at hr
  | cons y rest ih =>
    rintro i n hn ⟨r, hr⟩
    by_cases hy : y.id = i
    · unfold updateRec lookupRec
      simp only [List.map_cons, if_pos hy]
      rw [List.find?_cons_of_pos _ (by simp [hn])]
    · unfold updateRec lookupRec
      simp only [List.map_cons, if_neg hy]
      rw [List.find?_cons_of_neg _ (by simp [hy])]
      unfold lookupRec at hr
      rw [List.find?_cons_of_neg _ (by simp [hy])] at hr
      exact ih i n hn ⟨r, hr⟩

theorem lookupRec_update_other : ∀ (recs : List PNode) (i j : String) (n : PNode),
    n.id = i → j ≠ i →
    lookupRec (updateRec recs i n) j = lookupRec recs j := by
  intro recs
  induction recs with
  | nil => intro i j n _ _; rfl
  | cons y rest ih =>
    intro i j n hn hij
    unfold updateRec lookupRec
    simp only [List.map_cons]
    by_cases hy : y.id = i
    · rw [if_pos hy]
      rw [List.find?_cons_of_neg _ (by simp [hn]; exact fun he => hij he.symm)]
      rw [List.find?_cons_of_neg _ (by simp [hy]; exact fun he => hij he.symm)]
      exact ih i j n hn hij
    · rw [if_neg hy]
      by_cases hyj : y.id = j
      · rw [List.find?_cons_of_pos _ (by simp [hyj]),
          List.find?_cons_of_pos _ (by simp [hyj])]
      · rw [List.find?_cons_of_neg _ (by simp [hyj]),
          List.find?_cons_of_neg _ (by simp [hyj])]
        exact ih i j n hn hij

theorem pnode_id_inj {ms : List PNode} (hid : (ms.map PNode.id).Nodup)
    {x y : PNode} (hx : x ∈ ms) (hy : y ∈ ms) (he : x.id = y.id) : x = y :=
  List.inj_on_of_nodup_map hid hx hy he

theorem pnode_path_inj {ms : List PNode} (hp : (ms.map PNode.path).Nodup)
    {x y : PNode} (hx : x ∈ ms) (hy : y ∈ ms) (he : x.path = y.path) : x = y :=
  List.inj_on_of_nodup_map hp hx hy he

theorem dupsProcessed_nil (ms : List PNode) (x : PNode) :
    dupsProcessed ms x [] = [] := by
  unfold dupsProcessed
  split <;> rfl

theorem dupsProcessed_append_irrel (ms : List PNode) (x p : PNode) (pre : List PNode)
    (h : (mergeKey x ≠ "" ∧
        (ms.filter (fun q => mergeKey q = mergeKey x)).head? = some x) →
      ¬(mergeKey p = mergeKey x ∧ p.id ≠ x.id)) :
    dupsProcessed ms x (pre ++ [p]) = dupsProcessed ms x pre := by
  unfold dupsProcessed
  by_cases hcond : mergeKey x ≠ "" ∧
      (ms.filter (fun q => mergeKey q = mergeKey x)).head? = some x
  · rw [if_pos hcond, if_pos hcond, List.filter_append]
    have h2 : List.filter (fun q => decide (mergeKey q = mergeKey x ∧ q.id ≠ x.id)) [p]
        = [] := by
      simp only [List.filter_cons, List.filter_nil, decide_eq_true_eq]
      rw [if_neg (h hcond)]
    rw [h2, List.append_nil]
  · rw [if_neg hcond, if_neg hcond]

theorem mergeInv_init (ms : List PNode) (hid : (ms.map PNode.id).Nodup) :
    MergeInv ms [] ⟨ms, [], [], []⟩ := by
  refine ⟨?_, ?_, rfl, rfl⟩
  · intro t ht
    rfl
  · intro x hx
    rw [dupsProcessed_nil]
    exact lookupRec_self ms hid x hx

theorem mergeStep_inv (ms pre suf : List PNode) (p : PNode) (st : MSt)
    (hms : ms = pre ++ p :: suf)
    (hid : (ms.map PNode.id).Nodup)
    (hinv : MergeInv ms pre st) :
    MergeInv ms (pre ++ [p]) (mergeStep st p) := by
  obtain ⟨hI1, hI2, hI3, hI4⟩ := hinv
  have hdisj : ∀ q ∈ pre, q.id ≠ p.id := by
    intro q hq he
    have h2 := hid
    rw [hms, List.map_append, List.nodup_append] at h2
    exact h2.2.2 (List.mem_map_of_mem PNode.id hq)
      (by rw [List.map_cons, ← he]; exact List.mem_cons_self _ _)
  have hpmem : p ∈ ms := by
    rw [hms]; exact List.mem_append_right _ (List.mem_cons_self _ _)
  have hpnotpre : p ∉ pre := fun h => hdisj p h rfl
  have hdp : dupsProcessed ms p pre = [] := by
    unfold dupsProcessed
    by_cases hcond : mergeKey p ≠ "" ∧
        (ms.filter (fun q => mergeKey q = mergeKey p)).head? = some p
    · rw [if_pos hcond]
      have hpreK : pre.filter (fun q => mergeKey q = mergeKey p) = [] := by
        by_contra hne
        obtain ⟨q, rest, hq⟩ := List.exists_cons_of_ne_nil hne
        have hh := hcond.2
        rw [hms, List.filter_append, hq, List.cons_append, List.head?_cons] at hh
        have hqp : q = p := by injection hh
        have hqm : q ∈ pre := List.mem_of_mem_filter
          (by rw [hq]; exact List.mem_cons_self q rest)
        exact hpnotpre (hqp ▸ hqm)
      rw [List.filter_eq_nil_iff] at hpreK
      rw [List.filter_eq_nil_iff]
      intro a ha
      simp only [decide_eq_true_eq]
      intro h
      exact hpreK a ha (by simp only [decide_eq_true_eq]; exact h.1)
    · rw [if_neg hcond]
  have hnode : lookupRec st.recs p.id = some p := by
    have h := hI2 p hpmem
    rw [hdp] at h
    exact h
  by_cases ht : mergeKey p = ""
  · have hstep : mergeStep st p = st := by
      simp only [mergeStep, hnode, Option.getD_some, if_pos ht]
    rw [hstep]
    refine ⟨?_, ?_, ?_, ?_⟩
    · intro t' ht'
      rw [List.filter_append]
      have hfp : List.filter (fun q => decide (mergeKey q = t')) [p] = [] := by
        simp only [List.filter_cons, List.filter_nil, decide_eq_true_eq]
        rw [if_neg]
        intro h
        apply ht'
        rw [← h, ht]
      rw [hfp, List.append_nil]
      exact hI1 t' ht'
    · intro x hx
      rw [dupsProcessed_append_irrel]
      · exact hI2 x hx
      · intro hcond hcontra
        exact hcond.1 (by rw [← hcontra.1]; exact ht)
    · have hdb : isDupB ms p = false := by simp [isDupB, ht]
      rw [List.filter_append]
      have hfd : List.filter (isDupB ms) [p] = [] := by
        simp [List.filter_cons, hdb]
      rw [hfd, List.append_nil]
      exact hI3
    · have hdb : isDupB ms p = false := by simp [isDupB, ht]
      rw [List.filter_append]
      have hfd : List.filter (isDupB ms) [p] = [] := by
        simp [List.filter_cons, hdb]
      rw [hfd, List.append_nil]
      exact hI4
  · have hlook := hI1 (mergeKey p) ht
    by_cases hpre : pre.filter (fun q => mergeKey q = mergeKey p) = []
    · have hlooknone : st.titles.lookup (mergeKey p) = none := by
        rw [hlook, hpre]; rfl
      have hheadp : (ms.filter (fun q => mergeKey q = mergeKey p)).head? = some p := by
        rw [hms, List.filter_append, hpre, List.nil_append, List.filter_cons]
        rw [if_pos (by simp)]
        rfl
      have hstep : mergeStep st p
          = { st with titles := st.titles ++ [(mergeKey p, p.id)] } := by
        simp only [mergeStep, hnode, Option.getD_some, if_neg ht, hlooknone]
      rw [hstep]
      refine ⟨?_, ?_, ?_, ?_⟩
      · intro t' ht'
        show (st.titles ++ [(mergeKey p, p.id)]).lookup t' = _
        rw [lookup_append, hI1 t' ht', List.filter_append]
        by_cases htp : t' = mergeKey p
        · subst htp
          rw [hpre]
          simp [List.lookup]
        · have hne2 : ¬(mergeKey p = t') := fun h => htp h.symm
          have h1 : ([(mergeKey p, p.id)] : List (String × String)).lookup t' = none := by
            simp [List.lookup, beq_eq_false_iff_ne.mpr htp]
          have h2 : List.filter (fun q => decide (mergeKey q = t')) [p] = [] := by
            simp [List.filter_cons, hne2]
          rw [h1, h2, List.append_nil, Option.or_none]
      · intro x hx
        rw [dupsProcessed_append_irrel]
        · exact hI2 x hx
        · intro hcond hcontra
          have hfe : (fun q => decide (mergeKey q = mergeKey x))
              = (fun q => decide (mergeKey q = mergeKey p)) := by
            funext q; rw [hcontra.1]
          have hx2 := hcond.2
          rw [hfe, hheadp] at hx2
          have hpx : p = x := by injection hx2
          exact hcontra.2 (by rw [hpx])
      · have hdb : isDupB ms p = false := by
          simp [isDupB, hheadp]
        rw [List.filter_append]
        have hfd : List.filter (isDupB ms) [p] = [] := by
          simp [List.filter_cons, hdb]
        rw [hfd, List.append_nil]
        exact hI3
      · have hdb : isDupB ms p = false := by
          simp [isDupB, hheadp]
        rw [List.filter_append]
        have hfd : List.filter (isDupB ms) [p] = [] := by
          simp [List.filter_cons, hdb]
        rw [hfd, List.append_nil]
        exact hI4
    · obtain ⟨c0, rest0, hfil⟩ := List.exists_cons_of_ne_nil hpre
      have hc0pre : c0 ∈ pre := List.mem_of_mem_filter
        (by rw [hfil]; exact List.mem_cons_self c0 rest0)
      have hc0key : mergeKey c0 = mergeKey p := by
        have h := List.of_mem_filter
          (show c0 ∈ pre.filter (fun q => decide (mergeKey q = mergeKey p)) by
            rw [hfil]; exact List.mem_cons_self c0 rest0)
        simpa using h
      have hc0ms : c0 ∈ ms := by rw [hms]; exact List.mem_append_left _ hc0pre
      have hc0idne : c0.id ≠ p.id := hdisj c0 hc0pre
      have hlooksome : st.titles.lookup (mergeKey p) = some c0.id := by
        rw [hlook, hfil]; rfl
      have hheadc0 : (ms.filter (fun q => mergeKey q = mergeKey p)).head? = some c0 := by
        rw [hms, List.filter_append, hfil, List.cons_append]; rfl
      have hcnd : mergeKey c0 ≠ "" ∧
          (ms.filter (fun q => mergeKey q = mergeKey c0)).head? = some c0 := by
        constructor
        · rw [hc0key]; exact ht
        · simp only [hc0key]; exact hheadc0
      have hkrec := hI2 c0 hc0ms
      have hdupsc0 : dupsProcessed ms c0 pre
          = pre.filter (fun q => mergeKey q = mergeKey c0 ∧ q.id ≠ c0.id) := by
        unfold dupsProcessed
        rw [if_pos hcnd]
      rw [hdupsc0] at hkrec
      have hstep : mergeStep st p
          = { recs := updateRec st.recs c0.id
                (absorbDup (mergeInto c0
                  (pre.filter (fun q => mergeKey q = mergeKey c0 ∧ q.id ≠ c0.id))) p),
              titles := st.titles,
              removed := st.removed ++ [p.id],
              deleted := st.deleted ++ [p.path] } := by
        simp only [mergeStep, hnode, Option.getD_some, if_neg ht, hlooksome, hkrec]
      rw [hstep]
      have hnewid : (absorbDup (mergeInto c0
          (pre.filter (fun q => mergeKey q = mergeKey c0 ∧ q.id ≠ c0.id))) p).id
          = c0.id := by
        rw [absorbDup_id, mergeInto_id]
      refine ⟨?_, ?_, ?_, ?_⟩
      · intro t' ht'
        show st.titles.lookup t' = _
        rw [hI1 t' ht', List.filter_append]
        by_cases htp : t' = mergeKey p
        · subst htp
          rw [hfil, List.cons_append]
          rfl
        · have hne2 : ¬(mergeKey p = t') := fun h => htp h.symm
          have h2 : List.filter (fun q => decide (mergeKey q = t')) [p] = [] := by
            simp [List.filter_cons, hne2]
          rw [h2, List.append_nil]
      · intro x hx
        by_cases hxc : x.id = c0.id
        · have hxe : x = c0 := pnode_id_inj hid hx hc0ms hxc
          subst hxe
          rw [lookupRec_update_self _ _ _ hnewid ⟨_, hkrec⟩]
          congr 1
          rw [← mergeInto_concat]
          congr 1
          unfold dupsProcessed
          rw [if_pos hcnd, List.filter_append]
          congr 1
          simp only [List.filter_cons, List.filter_nil, decide_eq_true_eq]
          rw [if_pos ⟨hc0key.symm, Ne.symm hc0idne⟩]
        · rw [lookupRec_update_other st.recs c0.id x.id _ hnewid hxc]
          rw [dupsProcessed_append_irrel]
          · exact hI2 x hx
          · intro hcond hcontra
            have hfe : (fun q => decide (mergeKey q = mergeKey x))
                = (fun q => decide (mergeKey q = mergeKey p)) := by
              funext q; rw [hcontra.1]
            have hx2 := hcond.2
            rw [hfe, hheadc0] at hx2
            have hcx : c0 = x := by injection hx2
            exact hxc (by rw [hcx])
      · show st.removed ++ [p.id] = _
        rw [hI3, List.filter_append]
        have hc0nep : c0 ≠ p := fun h => hc0idne (by rw [h])
        have hdb : isDupB ms p = true := by
          simp [isDupB, ht, hheadc0, hc0nep]
        have hfd : List.filter (isDupB ms) [p] = [p] := by
          simp [List.filter_cons, hdb]
        rw [hfd, List.map_append]
        rfl
      · show st.deleted ++ [p.path] = _
        rw [hI4, List.filter_append]
        have hc0nep : c0 ≠ p := fun h => hc0idne (by rw [h])
        have hdb : isDupB ms p = true := by
          simp [isDupB, ht, hheadc0, hc0nep]
        have hfd : List.filter (isDupB ms) [p] = [p] := by
          simp [List.filter_cons, hdb]
        rw [hfd, List.map_append]
        rfl

theorem merge_foldl_inv (ms : List PNode) (hid : (ms.map PNode.id).Nodup) :
    ∀ (suf pre : List PNode) (st : MSt), ms = pre ++ suf → MergeInv ms pre st →
      MergeInv ms (pre ++ suf) (suf.foldl mergeStep st) := by
  intro suf
  induction suf with
  | nil =>
    intro pre st h hinv
    simpa using hinv
  | cons p rest ih =>
    intro pre st h hinv
    have e : pre ++ p :: rest = (pre ++ [p]) ++ rest := by simp
    rw [List.foldl_cons, e]
    exact ih (pre ++ [p]) (mergeStep st p) (h.trans e)
      (mergeStep_inv ms pre rest p st h hid hinv)

theorem merge_exact_title_inv (ms : List PNode) (hid : (ms.map PNode.id).Nodup) :
    MergeInv ms ms (merge_exact_title ms) := by
  have h := merge_foldl_inv ms hid ms [] ⟨ms, [], [], []⟩ (by simp)
    (mergeInv_init ms hid)
  simpa [merge_exact_title] using h

theorem filter_key_and_id (l : List PNode) (t : String) (i : String) :
    l.filter (fun q => mergeKey q = t ∧ q.id ≠ i)
      = (l.filter (fun q => mergeKey q = t)).filter (fun q => q.id ≠ i) := by
  rw [List.filter_filter]
  apply List.filter_congr
  intro a _
  by_cases h1 : mergeKey a = t <;> by_cases h2 : a.id = i <;> simp [h1, h2]

/-- C8: every group of nodes sharing the same trimmed, lowercased nonempty
title is consolidated by the merge pass onto its first-loaded member: that
record ends with all later members' `relations` and `examples` concatenated
onto its own in order, its `trust_score` is an upper bound of the group's
`trust_score`s (missing scores defaulting to 0) and is attained by some
member whenever duplicates exist, each later member's id is recorded as
removed and its file path deleted, the group head itself is neither removed
nor deleted, and `main` writes the graph with the removed ids filtered out
of `nodes` and `meta.optimized_at` set. -/
theorem C8_merge_consolidation
    (ns : List PNode) (g : WGraph) (now t : String) (c : PNode) (tl : List PNode)
    (hne : ns ≠ [])
    (hid : ((apply_decay ns).map PNode.id).Nodup)
    (hpath : ((apply_decay ns).map PNode.path).Nodup)
    (ht : t ≠ "")
    (hgrp : (apply_decay ns).filter (fun q => mergeKey q = t) = c :: tl) :
    lookupRec (merge_exact_title (apply_decay ns)).recs c.id
      = some (mergeInto c tl) ∧
    (mergeInto c tl).relations = c.relations ++ (tl.map PNode.relations).flatten ∧
    (mergeInto c tl).examples = c.examples ++ (tl.map PNode.examples).flatten ∧
    (∀ d ∈ c :: tl, d.trust_score.getD 0 ≤ (mergeInto c tl).trust_score.getD 0) ∧
    (tl ≠ [] → ∃ d ∈ c :: tl,
      (mergeInto c tl).trust_score = some (d.trust_score.getD 0)) ∧
    (∀ d ∈ tl, d.id ∈ (merge_exact_title (apply_decay ns)).removed
      ∧ d.path ∈ (merge_exact_title (apply_decay ns)).deleted) ∧
    c.id ∉ (merge_exact_title (apply_decay ns)).removed ∧
    c.path ∉ (merge_exact_title (apply_decay ns)).deleted ∧
    (optimizerMain ns g now).2.2.2
      = ⟨{ g.meta with optimized_at := some now },
          some ((g.nodes.getD []).filter
            (fun n => n ∉ (merge_exact_title (apply_decay ns)).removed)),
          g.edges⟩ := by
  obtain ⟨hI1, hI2, hI3, hI4⟩ := merge_exact_title_inv (apply_decay ns) hid
  have hcfil : c ∈ (apply_decay ns).filter (fun q => mergeKey q = t) := by
    rw [hgrp]; exact List.mem_cons_self c tl
  have hcms : c ∈ apply_decay ns := List.mem_of_mem_filter hcfil
  have hckey : mergeKey c = t := by simpa using List.of_mem_filter hcfil
  have hgnd : ((c :: tl).map PNode.id).Nodup := by
    rw [← hgrp]
    exact ((List.filter_sublist (apply_decay ns)).map PNode.id).nodup hid
  have htl_id : ∀ q ∈ tl, q.id ≠ c.id := by
    intro q hq he
    rw [List.map_cons, List.nodup_cons] at hgnd
    exact hgnd.1 (he ▸ List.mem_map_of_mem PNode.id hq)
  have hhead : ((apply_decay ns).filter
      (fun q => mergeKey q = mergeKey c)).head? = some c := by
    simp only [hckey]
    rw [hgrp]
    rfl
  have hcnd : mergeKey c ≠ "" ∧ ((apply_decay ns).filter
      (fun q => mergeKey q = mergeKey c)).head? = some c := by
    refine ⟨?_, hhead⟩
    rw [hckey]; exact ht
  have hdups : dupsProcessed (apply_decay ns) c (apply_decay ns) = tl := by
    have htlf : tl.filter (fun q => q.id ≠ c.id) = tl :=
      List.filter_eq_self.mpr (by
        intro q hq
        simp only [decide_eq_true_eq]
        exact htl_id q hq)
    unfold dupsProcessed
    rw [if_pos hcnd, filter_key_and_id]
    simp only [hckey]
    rw [hgrp, List.filter_cons, if_neg (by simp), htlf]
  refine ⟨?_, mergeInto_relations tl c, mergeInto_examples tl c,
    ?_, ?_, ?_, ?_, ?_, ?_⟩
  · rw [hI2 c hcms, hdups]
  · intro d hd
    by_cases htl : tl = []
    · subst htl
      rw [List.mem_singleton] at hd
      subst hd
      exact le_refl _
    · rw [mergeInto_trust tl c htl]
      simp only [Option.getD_some]
      rcases List.mem_cons.mp hd with rfl | hdtl
      · exact foldl_max_init _ _
      · exact foldl_max_mem_le _ _ _
          (List.mem_map_of_mem (fun q => q.trust_score.getD 0) hdtl)
  · intro htl
    rcases foldl_max_cases (tl.map (fun q => q.trust_score.getD 0))
        (c.trust_score.getD 0) with h | h
    · exact ⟨c, List.mem_cons_self c tl, by rw [mergeInto_trust tl c htl, h]⟩
    · obtain ⟨q, hq, hqe⟩ := List.mem_map.mp h
      exact ⟨q, List.mem_cons_of_mem c hq,
        by rw [mergeInto_trust tl c htl, ← hqe]⟩
  · intro d hd
    have hdfil : d ∈ (apply_decay ns).filter (fun q => mergeKey q = t) := by
      rw [hgrp]; exact List.mem_cons_of_mem c hd
    have hdms : d ∈ apply_decay ns := List.mem_of_mem_filter hdfil
    have hdkey : mergeKey d = t := by simpa using List.of_mem_filter hdfil
    have hdne : d ≠ c := by
      intro he
      exact htl_id d hd (by rw [he])
    have hdb : isDupB (apply_decay ns) d = true := by
      simp only [isDupB, Bool.and_eq_true, decide_eq_true_eq]
      constructor
      · rw [hdkey]; exact ht
      · simp only [hdkey]
        rw [hgrp, List.head?_cons]
        intro he
        exact hdne (Option.some.inj he).symm
    constructor
    · rw [hI3]
      exact List.mem_map_of_mem PNode.id (List.mem_filter.mpr ⟨hdms, hdb⟩)
    · rw [hI4]
      exact List.mem_map_of_mem PNode.path (List.mem_filter.mpr ⟨hdms, hdb⟩)
  · intro hmem
    rw [hI3] at hmem
    obtain ⟨q, hqf, hqid⟩ := List.mem_map.mp hmem
    have hqms : q ∈ apply_decay ns := List.mem_of_mem_filter hqf
    have hqe : q = c := pnode_id_inj hid hqms hcms hqid
    have hdb := List.of_mem_filter hqf
    rw [hqe] at hdb
    simp only [isDupB, Bool.and_eq_true, decide_eq_true_eq] at hdb
    exact hdb.2 hhead
  · intro hmem
    rw [hI4] at hmem
    obtain ⟨q, hqf, hqpath⟩ := List.mem_map.mp hmem
    have hqms : q ∈ apply_decay ns := List.mem_of_mem_filter hqf
    have hqe : q = c := pnode_path_inj hpath hqms hcms hqpath
    have hdb := List.of_mem_filter hqf
    rw [hqe] at hdb
    simp only [isDupB, Bool.and_eq_true, decide_eq_true_eq] at hdb
    exact hdb.2 hhead
  · simp only [optimizerMain, if_neg hne]

theorem C8_merge_consolidation_witness :
    c8nodes ≠ [] ∧
    lookupRec (merge_exact_title (apply_decay c8nodes)).recs c8a.id
      = some (mergeInto c8a [c8b]) :=
  ⟨by decide,
    (C8_merge_consolidation c8nodes ⟨emptyMeta, some ["n1", "n2"], none⟩ "T"
      "llm guide" c8a [c8b] (by decide) (by decide) (by decide) (by decide)
      (by decide)).1⟩

/-- C10: a node whose title is empty after trimming is never part of a
duplicate group: the merge pass leaves its record exactly as loaded, never
records its id as removed, and never deletes its file, even when several
nodes share an empty normalized title. -/
theorem C10_empty_title (ns : List PNode) (p : PNode)
    (hid : (ns.map PNode.id).Nodup)
    (hpath : (ns.map PNode.path).Nodup)
    (hp : p ∈ ns)
    (hkey : mergeKey p = "") :
    lookupRec (merge_exact_title ns).recs p.id = some p ∧
    p.id ∉ (merge_exact_title ns).removed ∧
    p.path ∉ (merge_exact_title ns).deleted := by
  obtain ⟨hI1, hI2, hI3, hI4⟩ := merge_exact_title_inv ns hid
  refine ⟨?_, ?_, ?_⟩
  · have h := hI2 p hp
    have hdp : dupsProcessed ns p ns = [] := by
      unfold dupsProcessed
      rw [if_neg]
      intro hc
      exact hc.1 hkey
    rw [hdp] at h
    exact h
  · intro hmem
    rw [hI3] at hmem
    obtain ⟨q, hqf, hqid⟩ := List.mem_map.mp hmem
    have hq : q ∈ ns := List.mem_of_mem_filter hqf
    have hqe : q = p := pnode_id_inj hid hq hp hqid
    have hdb := List.of_mem_filter hqf
    rw [hqe] at hdb
    simp only [isDupB, Bool.and_eq_true, decide_eq_true_eq] at hdb
    exact hdb.1 hkey
  · intro hmem
    rw [hI4] at hmem
    obtain ⟨q, hqf, hqpath⟩ := List.mem_map.mp hmem
    have hq : q ∈ ns := List.mem_of_mem_filter hqf
    have hqe : q = p := pnode_path_inj hpath hq hp hqpath
    have hdb := List.of_mem_filter hqf
    rw [hqe] at hdb
    simp only [isDupB, Bool.and_eq_true, decide_eq_true_eq] at hdb
    exact hdb.1 hkey

theorem C10_empty_title_witness :
    mergeKey c10b = "" ∧
    lookupRec (merge_exact_title c10nodes).recs c10b.id = some c10b :=
  ⟨by decide,
    (C10_empty_title c10nodes c10b (by decide) (by decide) (by decide)
      (by decide)).1⟩
